import Mathlib

/-!
# Verification of the BPE command-line tokenizer (`tokenizer-bpe.js`)

Shallow embedding of the core of `src/tokenizer-bpe.js` (class `BPE_Tokenizer`):
training (`trainFromText`), merge application (`_applyBPEToWord`), `tokenize`,
`encode`, `decode`, and artifact `save`/`load`.

Modelling conventions, fixed once for the whole file:

* JS strings are modelled as `List Char` (JS `Array.from` splits a string into
  Unicode code points, which is exactly `List Char`).  A BPE *piece* and a
  vocabulary *token* are both strings, so `Piece = Tok = List Char`.
* JS `Map` is modelled as an association list in insertion order:
  `set` overwrites in place when the key is present and appends otherwise,
  `get` returns the first (unique) binding.  JS `Map` key equality is
  SameValueZero, under which `NaN = NaN`; the value type `Jv` below gives NaN
  a dedicated constructor with decidable equality, so plain equality of `Jv`
  is exactly SameValueZero on the modelled fragment.
* JS numbers appearing as vocabulary ids are integers or NaN (the program only
  ever produces integer ids); `Jv.num` carries an `Int`, `Jv.nan` is NaN.
  A JSON artifact may carry non-numeric id values; `Jv.str` represents those.
* `undefined` (result of a missing `Map.get`) is `Option.none` at use sites.
* The training and merge loops of the source are `while`/bounded `for` loops;
  they are embedded with an explicit fuel argument so that every definition
  computes by kernel reduction.  `mergeOps` is itself the fuel of the training
  loop (the source loop is `for (iter = 0; iter < mergeOps; iter++)`), and the
  merge loop of `_applyBPEToWord` gets fuel `pieces.length`, which is proved
  sufficient (the loop shrinks the piece list every iteration; see the
  stabilisation theorem for claim C10).
* `String.prototype.normalize('NFC')` is modelled as the identity (inputs are
  assumed NFC-normal; composition-sensitive code points are outside the
  modelled fragment) and `toLowerCase` as `Char.toLower` mapped over the code
  points (the ASCII fragment of Unicode simple case folding).
* The source keys its count maps by `pieces.join(' ')` and re-splits with
  `split(' ')`.  All pieces occurring there are nonempty and whitespace-free
  (words come from splitting on `\s+`, and merging only concatenates), so the
  joined key determines the piece list uniquely; the maps are therefore
  modelled as keyed directly by the piece list / the pair of pieces.
-/

namespace BPE

/-- A JS value as it can appear as a vocabulary id: an integer number, NaN,
or (in a malformed artifact) a string.  Equality is SameValueZero. -/
inductive Jv where
  | num (n : Int)
  | nan
  | str (s : List Char)
deriving DecidableEq, Repr

/-- A BPE piece (and equally a vocabulary token): a JS string as a list of
code points. -/
abbrev Piece := List Char

abbrev Tok := List Char

/-- JS `Map.get`: first binding of the key, `none` for `undefined`. -/
def getAssoc {α β : Type} [DecidableEq α] (m : List (α × β)) (k : α) : Option β :=
  match m with
  | [] => none
  | (k', v) :: rest => if k' = k then some v else getAssoc rest k

/-- JS `Map.set`: overwrite in place when present, append otherwise. -/
def setAssoc {α β : Type} [DecidableEq α] (m : List (α × β)) (k : α) (v : β) :
    List (α × β) :=
  match m with
  | [] => [(k, v)]
  | (k', v') :: rest => if k' = k then (k, v) :: rest else (k', v') :: setAssoc rest k v

/-- The JS `\s` whitespace class, restricted to the code points the corpus
fragment uses (space, tab, LF, CR, VT, FF, NBSP). -/
def isWS (c : Char) : Bool :=
  c = ' ' || c = '\t' || c = '\n' || c = '\x0d' || c = '\x0b' || c = '\x0c' || c = ' '

/-- `/^\s+$/.test(w)`: a nonempty all-whitespace string. -/
def wsRun (w : List Char) : Bool :=
  !w.isEmpty && w.all isWS

/-- `normalize('NFC')`, modelled as the identity (see the header comment). -/
def jsNFC (cs : List Char) : List Char := cs

/-- `toLowerCase()`, modelled as code-point-wise `Char.toLower`. -/
def jsToLower (cs : List Char) : List Char := cs.map Char.toLower

/-- `this.lower ? s.normalize('NFC').toLowerCase() : s` — the normalization
applied both by `trainFromText` (per line) and by `tokenize` (whole text). -/
def normalizeText (lower : Bool) (cs : List Char) : List Char :=
  if lower then jsToLower (jsNFC cs) else cs

/-- `text.split(/\r?\n/)`: split on `\n`, consuming one `\r` directly
before it. -/
def splitLines : List Char → List (List Char)
  | [] => [[]]
  | '\x0d' :: '\n' :: rest => [] :: splitLines rest
  | '\n' :: rest => [] :: splitLines rest
  | c :: rest =>
    match splitLines rest with
    | [] => [[c]]
    | l :: ls => (c :: l) :: ls

/-- `src.split(/(\s+)/)`: segments of the string, alternating (possibly
empty) maximal non-whitespace runs with nonempty maximal whitespace runs,
starting and ending with a (possibly empty) non-whitespace segment —
exactly what the JS capturing split produces. -/
def splitKeepWS : List Char → List (List Char)
  | [] => [[]]
  | c :: rest =>
    match splitKeepWS rest with
    | [] => [[c]]
    | w :: rs =>
      if isWS c then
        match w, rs with
        | [], s :: rs' => [] :: (c :: s) :: rs'
        | _, _ => [] :: [c] :: w :: rs
      else (c :: w) :: rs

/-- `line.split(/\s+/).filter(Boolean)`: exactly the nonempty maximal
non-whitespace runs of the line, in order. -/
def splitWords (cs : List Char) : List (List Char) :=
  (splitKeepWS cs).filter (fun w => !w.isEmpty && !w.any isWS)

/-- `_wordToChars`: `'hello' -> ['▁h','e','l','l','o']` — one piece per code
point, with the word-start marker glued onto the first one. -/
def wordToChars (word : List Char) : List Piece :=
  match word with
  | [] => []
  | c :: rest => ('▁' :: [c]) :: rest.map (fun d => [d])

/-- The merge-priority map of `_applyBPEToWord`: pair `(a,b)` of the merge
table to its rank, a later duplicate of the same pair overwriting an earlier
rank (JS `mergeMap.set(a+' '+b, i)` in a loop). -/
def buildMergeMap (merges : List (Piece × Piece)) : List ((Piece × Piece) × Nat) :=
  go merges 0 []
where
  go : List (Piece × Piece) → Nat → List ((Piece × Piece) × Nat) →
      List ((Piece × Piece) × Nat)
  | [], _, mm => mm
  | pr :: rest, i, mm => go rest (i + 1) (setAssoc mm pr i)

/-- The rank (if any) of the adjacent pair starting at position `j` of the
piece list — the lookup the scan of `_applyBPEToWord` performs at index `j`. -/
def pairRank (mm : List ((Piece × Piece) × Nat)) (pieces : List Piece) (j : Nat) :
    Option Nat :=
  match pieces.drop j with
  | x :: y :: _ => getAssoc mm (x, y)
  | _ => none

/-- The inner scan of `_applyBPEToWord`: walk the adjacent pairs left to
right keeping `(bestPos, bestRank)`, replacing only on strictly smaller rank
(`rank < bestRank`, with `none` as the initial `Infinity`). -/
def findBestAux (mm : List ((Piece × Piece) × Nat)) :
    List Piece → Nat → Option (Nat × Nat) → Option (Nat × Nat)
  | p :: q :: rest, i, best =>
    let best' :=
      match getAssoc mm (p, q) with
      | some r =>
        match best with
        | some (bp, br) => if r < br then some (i, r) else some (bp, br)
        | none => some (i, r)
      | none => best
    findBestAux mm (q :: rest) (i + 1) best'
  | _, _, best => best

/-- One scan of `_applyBPEToWord`: the position and rank of the occurrence it
will merge (`none` when no adjacent pair is in the merge map, i.e. `done`). -/
def findBest (mm : List ((Piece × Piece) × Nat)) (pieces : List Piece) :
    Option (Nat × Nat) :=
  findBestAux mm pieces 0 none

/-- `pieces.splice(bestPos, 2, pieces[bestPos] + pieces[bestPos+1])`. -/
def mergeAt (pieces : List Piece) (pos : Nat) : List Piece :=
  pieces.take pos ++
    (match pieces.drop pos with
     | x :: y :: rest => (x ++ y) :: rest
     | l => l)

/-- The `while (!done)` loop of `_applyBPEToWord`, with explicit fuel.  Each
productive iteration shrinks the piece list by one, so fuel `pieces.length`
is exhaustive (proved as the stabilisation half of claim C10). -/
def bpeLoop (mm : List ((Piece × Piece) × Nat)) : Nat → List Piece → List Piece
  | 0, pieces => pieces
  | fuel + 1, pieces =>
    match findBest mm pieces with
    | none => pieces
    | some (pos, _) => bpeLoop mm fuel (mergeAt pieces pos)

/-- The number of merges the loop performs (one per productive iteration). -/
def bpeSteps (mm : List ((Piece × Piece) × Nat)) : Nat → List Piece → Nat
  | 0, _ => 0
  | fuel + 1, pieces =>
    match findBest mm pieces with
    | none => 0
    | some (pos, _) => bpeSteps mm fuel (mergeAt pieces pos) + 1

/-- `_applyBPEToWord(word)`. -/
def applyBPEToWord (merges : List (Piece × Piece)) (word : List Char) : List Piece :=
  let pieces := wordToChars word
  if pieces.isEmpty then []
  else bpeLoop (buildMergeMap merges) pieces.length pieces

/-- The in-memory state of a `BPE_Tokenizer` instance. -/
structure Tokenizer where
  lower : Bool
  specialTokens : List Tok
  tokenToId : List (Tok × Jv)
  idToToken : List (Jv × Tok)
  merges : List (Piece × Piece)
  counts : List (List Piece × Nat)
  nextId : Jv
deriving DecidableEq, Repr

/-- `'<UNK>'`. -/
def unkTok : Tok := "<UNK>".toList

/-- `'<BOS>'`. -/
def bosTok : Tok := "<BOS>".toList

/-- `'<EOS>'`. -/
def eosTok : Tok := "<EOS>".toList

/-- The default `specialTokens` option of the constructor. -/
def defaultSpecials : List Tok :=
  ["<PAD>".toList, unkTok, bosTok, eosTok, "<SEP>".toList]

/-- `Number(v)` for an id value out of an artifact: numbers pass through,
strings parse as (optionally signed, whitespace-trimmed) decimal integers,
everything unparsable is NaN.  The empty / all-whitespace string is `0` as in
JS.  (Float, hex and exponent forms are outside the modelled fragment.) -/
def jsNumber : Jv → Jv
  | .num n => .num n
  | .nan => .nan
  | .str s =>
    let t := ((s.dropWhile fun c => isWS c).reverse.dropWhile fun c => isWS c).reverse
    match t with
    | [] => .num 0
    | '-' :: ds => if ds ≠ [] ∧ ds.all Char.isDigit then .num (-(digitsVal ds)) else .nan
    | ds => if ds.all Char.isDigit then .num (digitsVal ds) else .nan
where
  digitsVal (ds : List Char) : Int :=
    ds.foldl (fun acc c => acc * 10 + (c.toNat - '0'.toNat)) 0

/-- `Number(x)` where `x` may also be `undefined` (a missed `Map.get`):
`Number(undefined)` is NaN. -/
def jsNumberOpt : Option Jv → Jv
  | none => .nan
  | some v => jsNumber v

/-- `this.nextId++`: increment an integer; NaN (and, unreachably, a string)
stays NaN. -/
def jvInc : Jv → Jv
  | .num n => .num (n + 1)
  | _ => .nan

/-- `Math.max(...keys) + 1` over the id keys of `idToToken`: NaN if any key
is NaN; the empty case (`Math.max()` is `-Infinity`) is collapsed to NaN,
which no claim observes. -/
def jsMaxPlusOne (ks : List Jv) : Jv :=
  match ks.foldl
      (fun acc k =>
        match acc, k with
        | some m, .num n => some (max m n)
        | _, _ => none)
      (some ((- 2 ^ 62 : Int))) with
  | some m => if ks.isEmpty then .nan else .num (m + 1)
  | none => .nan

/-- `_initSpecials()`: clear both maps, give the special tokens ids
`0..n-1` in declaration order, set `nextId` to `n`. -/
def initSpecials (s : Tokenizer) : Tokenizer :=
  let acc := s.specialTokens.foldl
    (fun (acc : (List (Tok × Jv) × List (Jv × Tok)) × Nat) st =>
      ((setAssoc acc.1.1 st (Jv.num acc.2), setAssoc acc.1.2 (Jv.num acc.2) st),
        acc.2 + 1))
    (([], []), 0)
  { s with tokenToId := acc.1.1, idToToken := acc.1.2, nextId := Jv.num acc.2 }

/-- The `BPE_Tokenizer` constructor: record the options, initialise the
special tokens, then fold in the provided initial vocab, skipping any entry
whose id does not convert to a number (`Number.isNaN` check). -/
def construct (lower : Bool) (specialTokens : List Tok)
    (merges : List (Piece × Piece)) (vocab : List (Tok × Jv)) : Tokenizer :=
  let s0 : Tokenizer :=
    { lower := lower, specialTokens := specialTokens, tokenToId := [],
      idToToken := [], merges := merges, counts := [], nextId := Jv.num 0 }
  let s1 := initSpecials s0
  vocab.foldl
    (fun s tv =>
      match jsNumber tv.2 with
      | .num n =>
        { s with tokenToId := setAssoc s.tokenToId tv.1 (Jv.num n),
                 idToToken := setAssoc s.idToToken (Jv.num n) tv.1 }
      | _ => s)
    s1

/-- `counts.set(key, (counts.get(key) || 0) + d)`. -/
def bumpCount (m : List (List Piece × Nat)) (k : List Piece) (d : Nat) :
    List (List Piece × Nat) :=
  setAssoc m k (((getAssoc m k).getD 0) + d)

/-- `pairCounts.set(pair, (pairCounts.get(pair) || 0) + cnt)`. -/
def bumpPair (m : List ((Piece × Piece) × Nat)) (k : Piece × Piece) (d : Nat) :
    List ((Piece × Piece) × Nat) :=
  setAssoc m k (((getAssoc m k).getD 0) + d)

/-- The word-frequency table built by the first phase of `trainFromText`:
for every line, normalize it, split it into words, and count each word's
piece sequence. -/
def initialCounts (lower : Bool) (text : List Char) : List (List Piece × Nat) :=
  (splitLines text).foldl
    (fun counts l =>
      (splitWords (normalizeText lower l)).foldl
        (fun counts w => bumpCount counts (wordToChars w) 1) counts)
    []

/-- The adjacent pairs of a piece sequence, in scan order. -/
def adjacentPairs : List Piece → List (Piece × Piece)
  | x :: y :: rest => (x, y) :: adjacentPairs (y :: rest)
  | _ => []

/-- One pair-frequency table (step 3.a): words below `minFrequency` are
skipped, every other word adds its count to each of its adjacent pairs. -/
def buildPairCounts (counts : List (List Piece × Nat)) (minFrequency : Nat) :
    List ((Piece × Piece) × Nat) :=
  counts.foldl
    (fun pc kv =>
      if kv.2 < minFrequency then pc
      else (adjacentPairs kv.1).foldl (fun pc pr => bumpPair pc pr kv.2) pc)
    []

/-- One comparison of the best-pair scan of `trainFromText`: replace the
current best on strictly greater count (`c > bestCount`, where a `null`
`bestPair` stands for `bestCount = 0`). -/
def selectStep (best : Option ((Piece × Piece) × Nat)) (kv : (Piece × Piece) × Nat) :
    Option ((Piece × Piece) × Nat) :=
  if kv.2 > (match best with | none => 0 | some b => b.2) then some kv else best

/-- The best-pair scan of `trainFromText`: `bestPair = null`, `bestCount = 0`,
replace on strictly greater count, so the first maximal entry in table order
wins. -/
def selectBest (pc : List ((Piece × Piece) × Nat)) : Option ((Piece × Piece) × Nat) :=
  pc.foldl selectStep none

/-- Rewrite one piece sequence for a freshly selected merge `(a, b)`:
replace non-overlapping occurrences left to right, not re-examining a
just-created merged piece (`i += 2`). -/
def mergePair (a b : Piece) : List Piece → List Piece
  | x :: y :: rest =>
    if x = a ∧ y = b then (a ++ b) :: mergePair a b rest
    else x :: mergePair a b (y :: rest)
  | l => l

/-- Apply a merge to the whole count table, re-accumulating counts of
sequences that collapse to the same key. -/
def applyMergeAll (a b : Piece) (counts : List (List Piece × Nat)) :
    List (List Piece × Nat) :=
  counts.foldl (fun nc kv => bumpCount nc (mergePair a b kv.1) kv.2) []

/-- The merge-selection loop of `trainFromText` (`for iter < mergeOps`),
returning the trace of selected `(pair, bestCount)` and the final counts.
The source pushes each selected pair onto `this.merges` as it goes; here the
trace records the pair together with the aggregate count it was selected at,
and the merge table is the list of first components. -/
def trainLoop (minFrequency : Nat) :
    Nat → List (List Piece × Nat) → List ((Piece × Piece) × Nat) × List (List Piece × Nat)
  | 0, counts => ([], counts)
  | fuel + 1, counts =>
    let pc := buildPairCounts counts minFrequency
    if pc.isEmpty then ([], counts)
    else
      match selectBest pc with
      | none => ([], counts)
      | some (pr, cnt) =>
        if cnt < minFrequency then ([], counts)
        else
          let res := trainLoop minFrequency fuel (applyMergeAll pr.1 pr.2 counts)
          ((pr, cnt) :: res.1, res.2)

/-- JS `new Set(list)` / `set.add`: the list deduplicated keeping first
occurrences, in insertion order. -/
def jsSetOfList (ts : List Tok) : List Tok :=
  ts.foldl (fun l t => if t ∈ l then l else l ++ [t]) []

/-- The post-loop vocabulary insertion of `trainFromText`: skip a token
already present, otherwise give it the next id in both directions. -/
def insertTok (s : Tokenizer) (tok : Tok) : Tokenizer :=
  if (getAssoc s.tokenToId tok).isSome then s
  else
    { s with tokenToId := setAssoc s.tokenToId tok s.nextId,
             idToToken := setAssoc s.idToToken s.nextId tok,
             nextId := jvInc s.nextId }

/-- `trainFromText(text, {minFrequency, mergeOps})`. -/
def trainFromText (s : Tokenizer) (text : List Char)
    (minFrequency mergeOps : Nat) : Tokenizer :=
  let counts0 := initialCounts s.lower text
  let res := trainLoop minFrequency mergeOps counts0
  let merges := res.1.map Prod.fst
  let tokenSet := jsSetOfList (s.specialTokens ++ (res.2.map Prod.fst).flatten)
  let s1 := initSpecials { s with merges := merges, counts := res.2 }
  tokenSet.foldl insertTok s1

/-- The persisted artifact `{meta, vocab, merges}`.  `vocab` is the entry
list of `tokenToId` (`Object.fromEntries` / JSON / `Object.entries` preserve
the entries; JS moves integer-like keys first, a permutation no `Map` lookup
can observe, so it is modelled as the identity). -/
structure Artifact where
  lower : Bool
  specialTokens : List Tok
  vocab : List (Tok × Jv)
  merges : List (Piece × Piece)
deriving DecidableEq, Repr

/-- `save()`: produce the artifact (file I/O and JSON text are the excluded
adapter). -/
def save (s : Tokenizer) : Artifact :=
  { lower := s.lower, specialTokens := s.specialTokens,
    vocab := s.tokenToId, merges := s.merges }

/-- `load()`: take the meta fields, run `_initSpecials`, then *replace* both
maps: `tokenToId` becomes the raw artifact entries, `idToToken` maps
`Number(id)` back to the token, `nextId` is `max(ids) + 1`. -/
def load (s : Tokenizer) (a : Artifact) : Tokenizer :=
  let s1 := initSpecials { s with lower := a.lower, specialTokens := a.specialTokens }
  let tokenToId := a.vocab
  let idToToken := a.vocab.map (fun tv => (jsNumber tv.2, tv.1))
  { s1 with tokenToId := tokenToId, idToToken := idToToken,
            nextId := jsMaxPlusOne (idToToken.map Prod.fst),
            merges := a.merges }

/-- `tokenize(text)`: normalize, split keeping whitespace runs, push
whitespace runs unchanged, skip empty segments, expand words through
`_applyBPEToWord`. -/
def tokenize (s : Tokenizer) (text : List Char) : List Piece :=
  let src := normalizeText s.lower text
  (splitKeepWS src).flatMap
    (fun w =>
      if wsRun w then [w]
      else if w.isEmpty then []
      else applyBPEToWord s.merges w)

/-- `x ?? y`. -/
def jsCoalesce (x y : Option Jv) : Option Jv :=
  match x with
  | some v => some v
  | none => y

/-- `'<SPACE>' + p.length`: the length-specific whitespace token key. -/
def spaceTok (n : Nat) : Tok :=
  "<SPACE>".toList ++ (Nat.repr n).toList

/-- What `encode` pushes for one piece: `none` (outer) means nothing is
pushed (a whitespace run with `keepSpaces` off), `some x` pushes `x`, where
`x : Option Jv` is the JS value pushed — possibly `undefined` (`Option.none`)
when even the `'<UNK>'` fallback lookup misses. -/
def encodePiece (s : Tokenizer) (keepSpaces : Bool) (p : Piece) : Option (Option Jv) :=
  if wsRun p then
    if keepSpaces then
      some (jsCoalesce (getAssoc s.tokenToId (spaceTok p.length))
        (getAssoc s.tokenToId unkTok))
    else none
  else some (jsCoalesce (getAssoc s.tokenToId p) (getAssoc s.tokenToId unkTok))

/-- `encode(text, {addBosEos, keepSpaces})`. -/
def encode (s : Tokenizer) (text : List Char) (addBosEos keepSpaces : Bool) :
    List (Option Jv) :=
  (if addBosEos then [getAssoc s.tokenToId bosTok] else []) ++
    (tokenize s text).filterMap (encodePiece s keepSpaces) ++
    (if addBosEos then [getAssoc s.tokenToId eosTok] else [])

/-- The token `decode` resolves one raw id to:
`this.idToToken.get(Number(idRaw)) ?? '<UNK>'`. -/
def decodeTok (s : Tokenizer) (idRaw : Option Jv) : Tok :=
  (getAssoc s.idToToken (jsNumberOpt idRaw)).getD unkTok

/-- The token that `decode` resolves the `'<UNK>'` fallback id to — what a
whitespace run whose `'<SPACE>n'` key is absent ultimately decodes to. -/
def wsFallbackTok (s : Tokenizer) : Tok :=
  decodeTok s (getAssoc s.tokenToId unkTok)

/-- Specification helper (not part of the source): the token map that assigns
`t₀ ↦ k, t₁ ↦ k+1, …` — the canonical shape of `tokenToId` after training. -/
def enumFrom : Nat → List Tok → List (Tok × Jv)
  | _, [] => []
  | k, t :: ts => (t, Jv.num k) :: enumFrom (k + 1) ts

/-- Specification helper: the reverse direction of `enumFrom` — the canonical
shape of `idToToken` after training. -/
def enumFromInv : Nat → List Tok → List (Jv × Tok)
  | _, [] => []
  | k, t :: ts => (Jv.num k, t) :: enumFromInv (k + 1) ts

/-- Specification helper: the alternation discipline of `split(/(\s+)/)`
segments — starting at a word position (`expectWS = false`), word segments
(whitespace-free, possibly empty) alternate with nonempty whitespace runs. -/
def altSegs : Bool → List (List Char) → Prop
  | _, [] => True
  | false, w :: rest => (w.all (fun c => !isWS c) = true) ∧ altSegs true rest
  | true, sp :: rest => sp ≠ [] ∧ (sp.all isWS = true) ∧ altSegs false rest

/-- A decoded part contributes its content, the word-start marker stripped
when it is the first code point. -/
def stripMarker (p : Tok) : List Char :=
  if p.head? = some '▁' then p.drop 1 else p

/-- `decode(ids, {skipSpecials})`: resolve each id (missing ids fall back to
`'<UNK>'`), drop special tokens when asked, then concatenate the
marker-stripped parts. -/
def decode (s : Tokenizer) (ids : List (Option Jv)) (skipSpecials : Bool) :
    List Char :=
  let parts := ids.filterMap
    (fun idRaw =>
      let tok := decodeTok s idRaw
      if skipSpecials ∧ tok ∈ s.specialTokens then none else some tok)
  parts.foldl (fun out p => out ++ stripMarker p) []

/-! ## Lemmas about the merge scan of `_applyBPEToWord` -/

theorem pairRank_nil (mm : List ((Piece × Piece) × Nat)) (j : Nat) :
    pairRank mm [] j = none := by
  cases j <;> rfl

theorem pairRank_single (mm : List ((Piece × Piece) × Nat)) (x : Piece) (j : Nat) :
    pairRank mm [x] j = none := by
  match j with
  | 0 => rfl
  | 1 => rfl
  | j + 2 => simp [pairRank, List.drop]

theorem pairRank_cons_succ (mm : List ((Piece × Piece) × Nat)) (x : Piece)
    (l : List Piece) (j : Nat) :
    pairRank mm (x :: l) (j + 1) = pairRank mm l j := rfl

theorem pairRank_cons_zero (mm : List ((Piece × Piece) × Nat)) (x y : Piece)
    (rest : List Piece) :
    pairRank mm (x :: y :: rest) 0 = getAssoc mm (x, y) := rfl


/-- Invariant of the scan of `_applyBPEToWord`: the scan returns either the
kept accumulator (then no scanned rank beats it strictly) or a scanned
occurrence of strictly smaller rank than the accumulator, rank-minimal and
leftmost among rank-minimal scanned occurrences. -/
theorem findBestAux_spec (mm : List ((Piece × Piece) × Nat)) :
    ∀ (l : List Piece) (i : Nat) (best : Option (Nat × Nat)),
      (findBestAux mm l i best = none →
        best = none ∧ ∀ j, pairRank mm l j = none) ∧
      (∀ p r, findBestAux mm l i best = some (p, r) →
        (best = some (p, r) ∧ ∀ j rj, pairRank mm l j = some rj → r ≤ rj) ∨
        (∃ j, p = i + j ∧ pairRank mm l j = some r ∧
          (∀ bp br, best = some (bp, br) → r < br) ∧
          (∀ j' rj', pairRank mm l j' = some rj' →
            r < rj' ∨ (r = rj' ∧ j ≤ j')))) := by
  intro l
  induction l with
  | nil =>
    intro i best
    refine ⟨fun h => ?_, fun p r h => ?_⟩
    · simp only [findBestAux] at h
      exact ⟨h, fun j => pairRank_nil mm j⟩
    · simp only [findBestAux] at h
      exact Or.inl ⟨h, by simp [pairRank_nil]⟩
  | cons x l' ih =>
    cases l' with
    | nil =>
      intro i best
      refine ⟨fun h => ?_, fun p r h => ?_⟩
      · simp only [findBestAux] at h
        exact ⟨h, fun j => pairRank_single mm x j⟩
      · simp only [findBestAux] at h
        exact Or.inl ⟨h, by simp [pairRank_single]⟩
    | cons y rest =>
      intro i best
      cases hg : getAssoc mm (x, y) with
      | none =>
        have hstep : findBestAux mm (x :: y :: rest) i best =
            findBestAux mm (y :: rest) (i + 1) best := by
          simp only [findBestAux, hg]
        refine ⟨fun h => ?_, fun p r h => ?_⟩
        · rw [hstep] at h
          obtain ⟨hb, hall⟩ := (ih (i + 1) best).1 h
          refine ⟨hb, fun j => ?_⟩
          cases j with
          | zero => simpa [pairRank_cons_zero] using hg
          | succ j => rw [pairRank_cons_succ]; exact hall j
        · rw [hstep] at h
          rcases (ih (i + 1) best).2 p r h with ⟨hbest, hbound⟩ |
            ⟨j, hpj, hrank, hblt, hmin⟩
          · refine Or.inl ⟨hbest, fun j rj hj => ?_⟩
            cases j with
            | zero => rw [pairRank_cons_zero, hg] at hj; cases hj
            | succ j => rw [pairRank_cons_succ] at hj; exact hbound j rj hj
          · refine Or.inr ⟨j + 1, by omega, by rwa [pairRank_cons_succ], hblt,
              fun j' rj' hj' => ?_⟩
            cases j' with
            | zero => rw [pairRank_cons_zero, hg] at hj'; cases hj'
            | succ j' =>
              rw [pairRank_cons_succ] at hj'
              rcases hmin j' rj' hj' with h1 | ⟨h1, h2⟩
              · exact Or.inl h1
              · exact Or.inr ⟨h1, by omega⟩
      | some r0 =>
        cases best with
        | none =>
          have hstep : findBestAux mm (x :: y :: rest) i none =
              findBestAux mm (y :: rest) (i + 1) (some (i, r0)) := by
            simp only [findBestAux, hg]
          refine ⟨fun h => ?_, fun p r h => ?_⟩
          · rw [hstep] at h
            obtain ⟨hb, -⟩ := (ih (i + 1) (some (i, r0))).1 h
            cases hb
          · rw [hstep] at h
            rcases (ih (i + 1) (some (i, r0))).2 p r h with ⟨hbest, hbound⟩ |
              ⟨j, hpj, hrank, hblt, hmin⟩
            · obtain ⟨hp, hr⟩ : i = p ∧ r0 = r := by
                injection hbest with h'; exact ⟨congrArg Prod.fst h', congrArg Prod.snd h'⟩
              refine Or.inr ⟨0, by omega, ?_, by simp, fun j' rj' hj' => ?_⟩
              · rw [pairRank_cons_zero, hg, hr]
              cases j' with
              | zero =>
                rw [pairRank_cons_zero, hg] at hj'
                injection hj' with h'
                exact Or.inr ⟨by omega, by omega⟩
              | succ j' =>
                rw [pairRank_cons_succ] at hj'
                have hle := hbound j' rj' hj'
                rcases Nat.lt_or_ge r rj' with h1 | h1
                · exact Or.inl h1
                · exact Or.inr ⟨by omega, by omega⟩
            · have hlt : r < r0 := hblt i r0 rfl
              refine Or.inr ⟨j + 1, by omega, by rwa [pairRank_cons_succ],
                by simp, fun j' rj' hj' => ?_⟩
              cases j' with
              | zero =>
                rw [pairRank_cons_zero, hg] at hj'
                injection hj' with h'
                exact Or.inl (by omega)
              | succ j' =>
                rw [pairRank_cons_succ] at hj'
                rcases hmin j' rj' hj' with h1 | ⟨h1, h2⟩
                · exact Or.inl h1
                · exact Or.inr ⟨h1, by omega⟩
        | some b =>
          obtain ⟨bp, br⟩ := b
          by_cases hc : r0 < br
          · have hstep : findBestAux mm (x :: y :: rest) i (some (bp, br)) =
                findBestAux mm (y :: rest) (i + 1) (some (i, r0)) := by
              simp only [findBestAux, hg, hc, if_pos]
            refine ⟨fun h => ?_, fun p r h => ?_⟩
            · rw [hstep] at h
              obtain ⟨hb, -⟩ := (ih (i + 1) (some (i, r0))).1 h
              cases hb
            · rw [hstep] at h
              rcases (ih (i + 1) (some (i, r0))).2 p r h with ⟨hbest, hbound⟩ |
                ⟨j, hpj, hrank, hblt, hmin⟩
              · obtain ⟨hp, hr⟩ : i = p ∧ r0 = r := by
                  injection hbest with h'
                  exact ⟨congrArg Prod.fst h', congrArg Prod.snd h'⟩
                refine Or.inr ⟨0, by omega, ?_, fun bp' br' hb' => ?_,
                  fun j' rj' hj' => ?_⟩
                · rw [pairRank_cons_zero, hg, hr]
                · simp only [Option.some.injEq, Prod.mk.injEq] at hb'
                  omega
                cases j' with
                | zero =>
                  rw [pairRank_cons_zero, hg] at hj'
                  injection hj' with h'
                  exact Or.inr ⟨by omega, by omega⟩
                | succ j' =>
                  rw [pairRank_cons_succ] at hj'
                  have hle := hbound j' rj' hj'
                  rcases Nat.lt_or_ge r rj' with h1 | h1
                  · exact Or.inl h1
                  · exact Or.inr ⟨by omega, by omega⟩
              · have hlt : r < r0 := hblt i r0 rfl
                refine Or.inr ⟨j + 1, by omega, by rwa [pairRank_cons_succ],
                  fun bp' br' hb' => ?_, fun j' rj' hj' => ?_⟩
                · simp only [Option.some.injEq, Prod.mk.injEq] at hb'
                  omega
                cases j' with
                | zero =>
                  rw [pairRank_cons_zero, hg] at hj'
                  injection hj' with h'
                  exact Or.inl (by omega)
                | succ j' =>
                  rw [pairRank_cons_succ] at hj'
                  rcases hmin j' rj' hj' with h1 | ⟨h1, h2⟩
                  · exact Or.inl h1
                  · exact Or.inr ⟨h1, by omega⟩
          · have hstep : findBestAux mm (x :: y :: rest) i (some (bp, br)) =
                findBestAux mm (y :: rest) (i + 1) (some (bp, br)) := by
              simp only [findBestAux, hg, hc, if_neg, if_false]
            refine ⟨fun h => ?_, fun p r h => ?_⟩
            · rw [hstep] at h
              obtain ⟨hb, -⟩ := (ih (i + 1) (some (bp, br))).1 h
              cases hb
            · rw [hstep] at h
              rcases (ih (i + 1) (some (bp, br))).2 p r h with ⟨hbest, hbound⟩ |
                ⟨j, hpj, hrank, hblt, hmin⟩
              · obtain ⟨hp, hr⟩ : bp = p ∧ br = r := by
                  injection hbest with h'
                  exact ⟨congrArg Prod.fst h', congrArg Prod.snd h'⟩
                refine Or.inl ⟨by rw [hp, hr], fun j rj hj => ?_⟩
                cases j with
                | zero =>
                  rw [pairRank_cons_zero, hg] at hj
                  injection hj with h'
                  omega
                | succ j => rw [pairRank_cons_succ] at hj; exact hbound j rj hj
              · have hlt : r < br := hblt bp br rfl
                refine Or.inr ⟨j + 1, by omega, by rwa [pairRank_cons_succ],
                  fun bp' br' hb' => ?_, fun j' rj' hj' => ?_⟩
                · simp only [Option.some.injEq, Prod.mk.injEq] at hb'
                  omega
                cases j' with
                | zero =>
                  rw [pairRank_cons_zero, hg] at hj'
                  injection hj' with h'
                  exact Or.inl (by omega)
                | succ j' =>
                  rw [pairRank_cons_succ] at hj'
                  rcases hmin j' rj' hj' with h1 | ⟨h1, h2⟩
                  · exact Or.inl h1
                  · exact Or.inr ⟨h1, by omega⟩

/-- If nothing matches, the scan keeps a `none` accumulator. -/
theorem findBestAux_none_of (mm : List ((Piece × Piece) × Nat)) :
    ∀ (l : List Piece) (i : Nat),
      (∀ j, pairRank mm l j = none) → findBestAux mm l i none = none := by
  intro l
  induction l with
  | nil => intro i _; rfl
  | cons x l' ih =>
    cases l' with
    | nil => intro i _; rfl
    | cons y rest =>
      intro i hall
      have hg : getAssoc mm (x, y) = none := by
        simpa [pairRank_cons_zero] using hall 0
      have hstep : findBestAux mm (x :: y :: rest) i none =
          findBestAux mm (y :: rest) (i + 1) none := by
        simp only [findBestAux, hg]
      rw [hstep]
      exact ih (i + 1) (fun j => by simpa [pairRank_cons_succ] using hall (j + 1))

/-- The scan returns `none` exactly when no adjacent pair is in the map. -/
theorem findBest_none_iff (mm : List ((Piece × Piece) × Nat)) (pieces : List Piece) :
    findBest mm pieces = none ↔ ∀ j, pairRank mm pieces j = none := by
  constructor
  · intro h
    exact ((findBestAux_spec mm pieces 0 none).1 h).2
  · intro h
    exact findBestAux_none_of mm pieces 0 h

/-- The scan selects a genuine occurrence of minimal rank, leftmost among
the occurrences of that rank. -/
theorem findBest_some_spec (mm : List ((Piece × Piece) × Nat))
    (pieces : List Piece) (pos r : Nat)
    (h : findBest mm pieces = some (pos, r)) :
    pairRank mm pieces pos = some r ∧
      (∀ j rj, pairRank mm pieces j = some rj → r ≤ rj) ∧
      (∀ j rj, j < pos → pairRank mm pieces j = some rj → r < rj) := by
  rcases (findBestAux_spec mm pieces 0 none).2 pos r h with ⟨hbest, -⟩ |
    ⟨j, hpj, hrank, -, hmin⟩
  · cases hbest
  · have hj : j = pos := by omega
    subst hj
    refine ⟨hrank, fun j' rj' hj' => ?_, fun j' rj' hlt hj' => ?_⟩
    · rcases hmin j' rj' hj' with h1 | ⟨h1, -⟩
      · exact Nat.le_of_lt h1
      · omega
    · rcases hmin j' rj' hj' with h1 | ⟨-, h2⟩
      · exact h1
      · omega

/-! ## Generic association-map lemmas -/

theorem getAssoc_setAssoc {α β : Type} [DecidableEq α]
    (m : List (α × β)) (k : α) (v : β) (q : α) :
    getAssoc (setAssoc m k v) q = if q = k then some v else getAssoc m q := by
  induction m with
  | nil =>
    by_cases h : q = k
    · subst h; simp [getAssoc, setAssoc]
    · have h' : ¬k = q := fun hh => h hh.symm
      simp [getAssoc, setAssoc, h, h']
  | cons e rest ih =>
    obtain ⟨k0, v0⟩ := e
    by_cases h0 : k0 = k
    · subst h0
      by_cases h : q = k0
      · subst h; simp [getAssoc, setAssoc]
      · have h' : ¬k0 = q := fun hh => h hh.symm
        simp [getAssoc, setAssoc, h, h']
    · by_cases h : q = k0
      · subst h
        simp [getAssoc, setAssoc, h0]
      · have h' : ¬k0 = q := fun hh => h hh.symm
        simp [getAssoc, setAssoc, h0, h', ih]

/-- A key absent from the map: `setAssoc` appends. -/
theorem setAssoc_fresh {α β : Type} [DecidableEq α]
    (m : List (α × β)) (k : α) (v : β) (h : getAssoc m k = none) :
    setAssoc m k v = m ++ [(k, v)] := by
  induction m with
  | nil => rfl
  | cons e rest ih =>
    obtain ⟨k0, v0⟩ := e
    by_cases h0 : k0 = k
    · simp [getAssoc, h0] at h
    · simp only [getAssoc, h0, if_false] at h
      simp [setAssoc, h0, ih h]

/-! ## Structural lemmas about `_applyBPEToWord` -/

theorem pairRank_some_lt (mm : List ((Piece × Piece) × Nat))
    (pieces : List Piece) (j r : Nat) (h : pairRank mm pieces j = some r) :
    j + 1 < pieces.length := by
  by_contra hge
  have hlen : (pieces.drop j).length ≤ 1 := by
    simp only [List.length_drop]
    omega
  unfold pairRank at h
  match hd : pieces.drop j with
  | [] => rw [hd] at h; cases h
  | [x] => rw [hd] at h; cases h
  | x :: y :: t => rw [hd] at hlen; simp at hlen

theorem findBest_pos_lt (mm : List ((Piece × Piece) × Nat))
    (pieces : List Piece) (pos r : Nat) (h : findBest mm pieces = some (pos, r)) :
    pos + 1 < pieces.length := by
  obtain ⟨hrank, -, -⟩ := findBest_some_spec mm pieces pos r h
  exact pairRank_some_lt mm pieces pos r hrank

theorem mergeAt_length (pieces : List Piece) (pos : Nat)
    (h : pos + 1 < pieces.length) :
    (mergeAt pieces pos).length + 1 = pieces.length := by
  unfold mergeAt
  match hd : pieces.drop pos with
  | [] =>
    have := List.length_drop pos pieces
    rw [hd] at this
    simp only [List.length_nil] at this
    omega
  | [x] =>
    have := List.length_drop pos pieces
    rw [hd] at this
    simp only [List.length_cons, List.length_nil] at this
    omega
  | x :: y :: t =>
    have hlen := List.length_drop pos pieces
    rw [hd] at hlen
    simp only [List.length_cons] at hlen
    simp only [List.length_append, List.length_take, List.length_cons]
    omega

theorem mergeAt_flatten (pieces : List Piece) (pos : Nat)
    (h : pos + 1 < pieces.length) :
    (mergeAt pieces pos).flatten = pieces.flatten := by
  conv_rhs => rw [← List.take_append_drop pos pieces]
  unfold mergeAt
  match hd : pieces.drop pos with
  | [] => rfl
  | [x] => rfl
  | x :: y :: t =>
    simp [List.flatten_append, List.append_assoc]

/-- Every piece stays nonempty through a merge step. -/
theorem mergeAt_ne_nil (pieces : List Piece) (pos : Nat)
    (hne : ∀ p ∈ pieces, p ≠ []) :
    ∀ p ∈ mergeAt pieces pos, p ≠ [] := by
  intro p hp
  unfold mergeAt at hp
  rcases List.mem_append.mp hp with h1 | h2
  · exact hne p (List.take_subset pos pieces h1)
  · rcases hd : pieces.drop pos with _ | ⟨x, _ | ⟨y, t⟩⟩
    · rw [hd] at h2
      simp at h2
    · rw [hd] at h2
      simp only [List.mem_singleton] at h2
      subst h2
      exact hne p (List.drop_subset pos pieces (by rw [hd]; simp))
    · rw [hd] at h2
      rcases List.mem_cons.mp h2 with h3 | h3
      · subst h3
        have hx : x ∈ pieces := List.drop_subset pos pieces (by rw [hd]; simp)
        have := hne x hx
        simp [this]
      · exact hne p (List.drop_subset pos pieces (by rw [hd]; simp [h3]))

/-- The merge loop stabilises once the fuel reaches the piece count: the
`while` loop of the source needs at most `pieces.length` iterations. -/
theorem bpeLoop_stable (mm : List ((Piece × Piece) × Nat)) :
    ∀ (fuel : Nat) (pieces : List Piece), pieces.length ≤ fuel →
      ∀ extra, bpeLoop mm (fuel + extra) pieces = bpeLoop mm fuel pieces := by
  intro fuel
  induction fuel with
  | zero =>
    intro pieces hlen extra
    have : pieces = [] := List.length_eq_zero.mp (by omega)
    subst this
    cases extra with
    | zero => rfl
    | succ e => simp [bpeLoop, findBest, findBestAux]
  | succ fuel ih =>
    intro pieces hlen extra
    have hstep : fuel + 1 + extra = (fuel + extra) + 1 := by omega
    rw [hstep]
    simp only [bpeLoop]
    cases hfb : findBest mm pieces with
    | none => rfl
    | some pr =>
      obtain ⟨pos, r⟩ := pr
      have hlt := findBest_pos_lt mm pieces pos r hfb
      have hml := mergeAt_length pieces pos hlt
      exact ih (mergeAt pieces pos) (by omega) extra

/-- The loop performs at most `pieces.length - 1` merges, whatever the fuel. -/
theorem bpeSteps_le (mm : List ((Piece × Piece) × Nat)) :
    ∀ (fuel : Nat) (pieces : List Piece),
      bpeSteps mm fuel pieces ≤ pieces.length - 1 := by
  intro fuel
  induction fuel with
  | zero => intro pieces; simp [bpeSteps]
  | succ fuel ih =>
    intro pieces
    cases hfb : findBest mm pieces with
    | none => simp [bpeSteps, hfb]
    | some pr =>
      obtain ⟨pos, r⟩ := pr
      have hlt := findBest_pos_lt mm pieces pos r hfb
      have hml := mergeAt_length pieces pos hlt
      have := ih (mergeAt pieces pos)
      simp only [bpeSteps, hfb]
      omega

/-- Merging never changes the concatenated character content. -/
theorem bpeLoop_flatten (mm : List ((Piece × Piece) × Nat)) :
    ∀ (fuel : Nat) (pieces : List Piece),
      (bpeLoop mm fuel pieces).flatten = pieces.flatten := by
  intro fuel
  induction fuel with
  | zero => intro pieces; rfl
  | succ fuel ih =>
    intro pieces
    simp only [bpeLoop]
    cases hfb : findBest mm pieces with
    | none => rfl
    | some pr =>
      obtain ⟨pos, r⟩ := pr
      have hlt := findBest_pos_lt mm pieces pos r hfb
      rw [ih (mergeAt pieces pos), mergeAt_flatten pieces pos hlt]

/-- Pieces stay nonempty through the whole loop. -/
theorem bpeLoop_ne_nil (mm : List ((Piece × Piece) × Nat)) :
    ∀ (fuel : Nat) (pieces : List Piece), (∀ p ∈ pieces, p ≠ []) →
      ∀ p ∈ bpeLoop mm fuel pieces, p ≠ [] := by
  intro fuel
  induction fuel with
  | zero => intro pieces h; exact h
  | succ fuel ih =>
    intro pieces h
    simp only [bpeLoop]
    cases hfb : findBest mm pieces with
    | none => exact h
    | some pr =>
      obtain ⟨pos, r⟩ := pr
      exact ih (mergeAt pieces pos) (mergeAt_ne_nil pieces pos h)

theorem wordToChars_flatten (word : List Char) (h : word ≠ []) :
    (wordToChars word).flatten = '▁' :: word := by
  match word with
  | [] => exact absurd rfl h
  | c :: rest =>
    simp only [wordToChars, List.flatten]
    induction rest with
    | nil => rfl
    | cons d rest ih => simp_all [List.flatten]

theorem wordToChars_length (word : List Char) :
    (wordToChars word).length = word.length := by
  match word with
  | [] => rfl
  | c :: rest => simp [wordToChars]

theorem wordToChars_ne_nil (word : List Char) :
    ∀ p ∈ wordToChars word, p ≠ [] := by
  match word with
  | [] => simp [wordToChars]
  | c :: rest =>
    intro p hp
    simp only [wordToChars] at hp
    rcases List.mem_cons.mp hp with h1 | h1
    · subst h1; simp
    · obtain ⟨d, -, hd⟩ := List.mem_map.mp h1
      subst hd; simp

/-- Character content of `_applyBPEToWord`: the pieces concatenate to the
marker followed by the word. -/
theorem applyBPEToWord_flatten (merges : List (Piece × Piece)) (word : List Char)
    (h : word ≠ []) :
    (applyBPEToWord merges word).flatten = '▁' :: word := by
  unfold applyBPEToWord
  have hne : ¬(wordToChars word).isEmpty := by
    match word with
    | [] => exact absurd rfl h
    | c :: rest => simp [wordToChars]
  simp only [hne, if_false, Bool.false_eq_true]
  rw [bpeLoop_flatten, wordToChars_flatten word h]

theorem applyBPEToWord_ne_nil (merges : List (Piece × Piece)) (word : List Char) :
    ∀ p ∈ applyBPEToWord merges word, p ≠ [] := by
  unfold applyBPEToWord
  by_cases hne : (wordToChars word).isEmpty
  · simp [hne]
  · simp only [hne, if_false, Bool.false_eq_true]
    exact bpeLoop_ne_nil _ _ _ (wordToChars_ne_nil word)

/-- A rank reported by the merge map is a position of that pair in the merge
table (the last one, when the table repeats a pair). -/
theorem buildMergeMap_rank (merges : List (Piece × Piece)) (pr : Piece × Piece)
    (r : Nat) (h : getAssoc (buildMergeMap merges) pr = some r) :
    merges.get? r = some pr := by
  suffices hgen : ∀ (l : List (Piece × Piece)) (i : Nat)
      (mm : List ((Piece × Piece) × Nat)) (P : (Piece × Piece) → Nat → Prop),
      (∀ pr' r', getAssoc mm pr' = some r' → P pr' r') →
      ∀ pr' r', getAssoc (buildMergeMap.go l i mm) pr' = some r' →
        P pr' r' ∨ ∃ j, l.get? j = some pr' ∧ r' = i + j by
    have := hgen merges 0 [] (fun _ _ => False) (by simp [getAssoc]) pr r h
    rcases this with hf | ⟨j, hj, hr⟩
    · exact absurd hf (by simp)
    · subst hr; simpa using hj
  intro l
  induction l with
  | nil =>
    intro i mm P hP pr' r' h'
    exact Or.inl (hP pr' r' h')
  | cons pr0 rest ih =>
    intro i mm P hP pr' r' h'
    simp only [buildMergeMap.go] at h'
    have := ih (i + 1) (setAssoc mm pr0 i)
      (fun q s => P q s ∨ (q = pr0 ∧ s = i))
      (fun q s hq => by
        rw [getAssoc_setAssoc] at hq
        by_cases hqq : q = pr0
        · rw [if_pos hqq] at hq
          exact Or.inr ⟨hqq, by injection hq with h''; omega⟩
        · rw [if_neg hqq] at hq
          exact Or.inl (hP q s hq))
      pr' r' h'
    rcases this with (hPp | ⟨hq, hs⟩) | ⟨j, hj, hr⟩
    · exact Or.inl hPp
    · exact Or.inr ⟨0, by simp [hq], by omega⟩
    · exact Or.inr ⟨j + 1, by simpa using hj, by omega⟩

/-! ## The merge loop, step by step -/

/-- When no adjacent pair matches, the loop exits without merging. -/
theorem bpeLoop_none (mm : List ((Piece × Piece) × Nat)) (fuel : Nat)
    (pieces : List Piece) (h : findBest mm pieces = none) :
    bpeLoop mm fuel pieces = pieces := by
  cases fuel with
  | zero => rfl
  | succ fuel => simp [bpeLoop, h]

/-- When a pair is selected, the loop merges exactly that occurrence and
rescans from scratch. -/
theorem bpeLoop_step (mm : List ((Piece × Piece) × Nat)) (fuel : Nat)
    (pieces : List Piece) (pos r : Nat) (h : findBest mm pieces = some (pos, r)) :
    bpeLoop mm (fuel + 1) pieces = bpeLoop mm fuel (mergeAt pieces pos) := by
  simp [bpeLoop, h]

/-! ## Claim theorems: the merge-application algorithm -/

/-- C1: each step of `_applyBPEToWord` merges exactly one occurrence: among
the adjacent pairs present in the merge table it selects the occurrence whose
rule has the lowest priority rank, ties broken by leftmost position, then
rescans from scratch, terminating when no adjacent pair matches; a reported
rank is a position of that pair in the merge table; and for the table
`[(a,b) rank 0, (b,c) rank 1]` on pieces `a,b,c` the result is `[ab, c]`,
not `[a, bc]`. -/
theorem c1_applyMerges_priority :
    (∀ mm pieces, findBest mm pieces = none ↔ ∀ j, pairRank mm pieces j = none) ∧
    (∀ mm pieces pos r, findBest mm pieces = some (pos, r) →
      pairRank mm pieces pos = some r ∧
        (∀ j rj, pairRank mm pieces j = some rj → r ≤ rj) ∧
        (∀ j rj, j < pos → pairRank mm pieces j = some rj → r < rj)) ∧
    (∀ merges pr r, getAssoc (buildMergeMap merges) pr = some r →
      merges.get? r = some pr) ∧
    (∀ mm fuel pieces pos r, findBest mm pieces = some (pos, r) →
      bpeLoop mm (fuel + 1) pieces = bpeLoop mm fuel (mergeAt pieces pos)) ∧
    (∀ mm fuel pieces, findBest mm pieces = none → bpeLoop mm fuel pieces = pieces) ∧
    (applyBPEToWord [("▁a".toList, "b".toList), ("b".toList, "c".toList)] "abc".toList
        = ["▁ab".toList, "c".toList] ∧
      applyBPEToWord [("▁a".toList, "b".toList), ("b".toList, "c".toList)] "abc".toList
        ≠ ["▁a".toList, "bc".toList]) := by
  refine ⟨findBest_none_iff, findBest_some_spec, buildMergeMap_rank,
    fun mm fuel pieces pos r h => bpeLoop_step mm fuel pieces pos r h,
    fun mm fuel pieces h => bpeLoop_none mm fuel pieces h,
    by decide, by decide⟩

theorem c1_applyMerges_priority_witness :
    findBest (buildMergeMap [("▁a".toList, "b".toList), ("b".toList, "c".toList)])
        (wordToChars "abc".toList) = some (0, 0) ∧
      pairRank (buildMergeMap [("▁a".toList, "b".toList), ("b".toList, "c".toList)])
        (wordToChars "abc".toList) 0 = some 0 :=
  ⟨by decide,
    (c1_applyMerges_priority.2.1 _ (wordToChars "abc".toList) 0 0 (by decide)).1⟩

/-- C9: merging never alters character content — the pieces of
`_applyBPEToWord` concatenate to the word-start marker followed by the
word's code points, for every non-empty word and every merge table. -/
theorem c9_content_preserved (merges : List (Piece × Piece)) (word : List Char)
    (h : word ≠ []) :
    (applyBPEToWord merges word).flatten = '▁' :: word :=
  applyBPEToWord_flatten merges word h

theorem c9_content_preserved_witness :
    "low".toList ≠ [] ∧
      (applyBPEToWord [("▁l".toList, "o".toList)] "low".toList).flatten
        = '▁' :: "low".toList :=
  ⟨by decide, c9_content_preserved [("▁l".toList, "o".toList)] "low".toList (by decide)⟩

/-- C10: `_applyBPEToWord` terminates on every word and merge table: an
iteration either exits without merging or replaces two adjacent pieces by
one, strictly decreasing the piece count; the loop is stable once the fuel
reaches the piece count (so the unbounded source loop finishes within
`pieces.length` iterations); and the number of merges performed is at most
the word's code-point count minus one. -/
theorem c10_bpe_terminates :
    (∀ mm fuel pieces, findBest mm pieces = none → bpeLoop mm fuel pieces = pieces) ∧
    (∀ mm fuel pieces pos r, findBest mm pieces = some (pos, r) →
      (mergeAt pieces pos).length + 1 = pieces.length ∧
        bpeLoop mm (fuel + 1) pieces = bpeLoop mm fuel (mergeAt pieces pos)) ∧
    (∀ mm pieces fuel extra, pieces.length ≤ fuel →
      bpeLoop mm (fuel + extra) pieces = bpeLoop mm fuel pieces) ∧
    (∀ mm fuel word, bpeSteps mm fuel (wordToChars word) ≤ word.length - 1) := by
  refine ⟨fun mm fuel pieces h => bpeLoop_none mm fuel pieces h,
    fun mm fuel pieces pos r h =>
      ⟨mergeAt_length pieces pos (findBest_pos_lt mm pieces pos r h),
        bpeLoop_step mm fuel pieces pos r h⟩,
    fun mm pieces fuel extra h => bpeLoop_stable mm fuel pieces h extra,
    fun mm fuel word => ?_⟩
  have := bpeSteps_le mm fuel (wordToChars word)
  rwa [wordToChars_length] at this

theorem c10_bpe_terminates_witness :
    (wordToChars "abc".toList).length ≤ 3 ∧
      bpeLoop (buildMergeMap [("▁a".toList, "b".toList)]) (3 + 2)
          (wordToChars "abc".toList)
        = bpeLoop (buildMergeMap [("▁a".toList, "b".toList)]) 3
          (wordToChars "abc".toList) :=
  ⟨by decide,
    c10_bpe_terminates.2.2.1 (buildMergeMap [("▁a".toList, "b".toList)])
      (wordToChars "abc".toList) 3 2 (by decide)⟩

/-! ## Lemmas about the training loop -/

theorem mem_setAssoc {α β : Type} [DecidableEq α]
    (m : List (α × β)) (k : α) (v : β) :
    ∀ kv ∈ setAssoc m k v, kv ∈ m ∨ kv = (k, v) := by
  induction m with
  | nil => intro kv hkv; simp [setAssoc] at hkv; simp [hkv]
  | cons e rest ih =>
    obtain ⟨k0, v0⟩ := e
    intro kv hkv
    by_cases h0 : k0 = k
    · simp only [setAssoc, h0, if_pos] at hkv
      rcases List.mem_cons.mp hkv with h | h
      · exact Or.inr h
      · exact Or.inl (List.mem_cons_of_mem _ h)
    · simp only [setAssoc, h0, if_false] at hkv
      rcases List.mem_cons.mp hkv with h | h
      · exact Or.inl (by simp [h])
      · rcases ih kv h with h' | h'
        · exact Or.inl (List.mem_cons_of_mem _ h')
        · exact Or.inr h'

theorem bumpFold_ge (mf c : Nat) (hc : mf ≤ c) :
    ∀ (prs : List (Piece × Piece)) (pc0 : List ((Piece × Piece) × Nat)),
      (∀ kv ∈ pc0, mf ≤ kv.2) →
      ∀ kv ∈ prs.foldl (fun pc pr => bumpPair pc pr c) pc0, mf ≤ kv.2 := by
  intro prs
  induction prs with
  | nil => intro pc0 h kv hkv; exact h kv hkv
  | cons pr rest ih =>
    intro pc0 h kv hkv
    simp only [List.foldl_cons] at hkv
    refine ih (bumpPair pc0 pr c) ?_ kv hkv
    intro kv' hkv'
    unfold bumpPair at hkv'
    rcases mem_setAssoc pc0 pr (((getAssoc pc0 pr).getD 0) + c) kv' hkv' with hm | he
    · exact h kv' hm
    · rw [he]; simp; omega

/-- Every entry of a pair-frequency table is at least `minFrequency`: only
words of count `≥ minFrequency` contribute, each contributing its count. -/
theorem buildPairCounts_ge (counts : List (List Piece × Nat)) (mf : Nat) :
    ∀ kv ∈ buildPairCounts counts mf, mf ≤ kv.2 := by
  suffices hgen : ∀ (cl : List (List Piece × Nat)) (pc0),
      (∀ kv ∈ pc0, mf ≤ kv.2) →
      ∀ kv ∈ cl.foldl
        (fun pc kv =>
          if kv.2 < mf then pc
          else (adjacentPairs kv.1).foldl (fun pc pr => bumpPair pc pr kv.2) pc)
        pc0, mf ≤ kv.2 by
    intro kv hkv
    exact hgen counts [] (by simp) kv hkv
  intro cl
  induction cl with
  | nil => intro pc0 h kv hkv; exact h kv hkv
  | cons w rest ih =>
    intro pc0 h kv hkv
    simp only [List.foldl_cons] at hkv
    by_cases hw : w.2 < mf
    · rw [if_pos hw] at hkv
      exact ih pc0 h kv hkv
    · rw [if_neg hw] at hkv
      exact ih _ (bumpFold_ge mf w.2 (by omega) (adjacentPairs w.1) pc0 h) kv hkv

theorem selectFold_isSome :
    ∀ (l : List ((Piece × Piece) × Nat)) (best : Option ((Piece × Piece) × Nat)),
      ((∃ kv ∈ l, 0 < kv.2) ∨ best.isSome) → (l.foldl selectStep best).isSome := by
  intro l
  induction l with
  | nil =>
    intro best h
    rcases h with ⟨kv, hkv, -⟩ | h
    · simp at hkv
    · exact h
  | cons kv rest ih =>
    intro best h
    simp only [List.foldl_cons]
    cases best with
    | some b =>
      refine ih (selectStep (some b) kv) (Or.inr ?_)
      unfold selectStep
      by_cases hgt : kv.2 > b.2 <;> simp [hgt]
    | none =>
      by_cases hpos : 0 < kv.2
      · refine ih (selectStep none kv) (Or.inr ?_)
        unfold selectStep
        simp [hpos]
      · rcases h with ⟨kv', hkv', hpos'⟩ | h
        · rcases List.mem_cons.mp hkv' with he | hm
          · subst he; omega
          · refine ih (selectStep none kv) (Or.inl ⟨kv', hm, hpos'⟩)
        · simp at h

/-- On a nonempty table whose entries are all positive, the selection finds
a pair. -/
theorem selectBest_isSome (pc : List ((Piece × Piece) × Nat))
    (hne : pc ≠ []) (hpos : ∀ kv ∈ pc, 0 < kv.2) : (selectBest pc).isSome := by
  match pc with
  | [] => exact absurd rfl hne
  | kv :: rest =>
    exact selectFold_isSome (kv :: rest) none
      (Or.inl ⟨kv, by simp, hpos kv (by simp)⟩)

theorem trainLoop_length (mf : Nat) :
    ∀ (fuel : Nat) (counts : List (List Piece × Nat)),
      (trainLoop mf fuel counts).1.length ≤ fuel := by
  intro fuel
  induction fuel with
  | zero => intro counts; simp [trainLoop]
  | succ fuel ih =>
    intro counts
    simp only [trainLoop]
    by_cases hpc : (buildPairCounts counts mf).isEmpty = true
    · simp [hpc]
    · simp only [hpc, if_false, Bool.false_eq_true]
      cases hsel : selectBest (buildPairCounts counts mf) with
      | none => simp
      | some b =>
        obtain ⟨pr, cnt⟩ := b
        by_cases hcnt : cnt < mf
        · simp [hcnt]
        · simp only [hcnt, if_false]
          have := ih (applyMergeAll pr.1 pr.2 counts)
          simp only [List.length_cons]
          omega

theorem trainLoop_trace_ge (mf : Nat) :
    ∀ (fuel : Nat) (counts : List (List Piece × Nat)),
      ∀ x ∈ (trainLoop mf fuel counts).1, mf ≤ x.2 := by
  intro fuel
  induction fuel with
  | zero => intro counts; simp [trainLoop]
  | succ fuel ih =>
    intro counts
    simp only [trainLoop]
    by_cases hpc : (buildPairCounts counts mf).isEmpty = true
    · simp [hpc]
    · simp only [hpc, if_false, Bool.false_eq_true]
      cases hsel : selectBest (buildPairCounts counts mf) with
      | none => simp
      | some b =>
        obtain ⟨pr, cnt⟩ := b
        by_cases hcnt : cnt < mf
        · simp [hcnt]
        · simp only [hcnt, if_false]
          intro x hx
          rcases List.mem_cons.mp hx with he | hm
          · subst he; simp; omega
          · exact ih (applyMergeAll pr.1 pr.2 counts) x hm

/-- The loop stops exactly when the pair table is empty or the selected best
count is below `minFrequency`. -/
theorem trainLoop_stop_iff (mf : Nat) (h1 : 1 ≤ mf) (fuel : Nat)
    (counts : List (List Piece × Nat)) :
    (trainLoop mf (fuel + 1) counts).1 = [] ↔
      buildPairCounts counts mf = [] ∨
      ∃ pr c, selectBest (buildPairCounts counts mf) = some (pr, c) ∧ c < mf := by
  simp only [trainLoop]
  by_cases hpc : (buildPairCounts counts mf).isEmpty = true
  · simp [hpc, List.isEmpty_iff.mp hpc]
  · have hne : buildPairCounts counts mf ≠ [] := by
      simpa [List.isEmpty_iff] using hpc
    simp only [hpc, if_false, Bool.false_eq_true]
    cases hsel : selectBest (buildPairCounts counts mf) with
    | none =>
      exfalso
      have := selectBest_isSome (buildPairCounts counts mf) hne
        (fun kv hkv => by have := buildPairCounts_ge counts mf kv hkv; omega)
      rw [hsel] at this
      cases this
    | some b =>
      obtain ⟨pr, cnt⟩ := b
      by_cases hcnt : cnt < mf
      · refine iff_of_true ?_ (Or.inr ⟨pr, cnt, rfl, hcnt⟩)
        simp [hcnt]
      · simp only [hcnt, if_false]
        refine iff_of_false (by simp) ?_
        rintro (h | ⟨pr', c', hsel', hlt⟩)
        · exact hne h
        · simp only [Option.some.injEq, Prod.mk.injEq] at hsel'
          omega

/-- `insertTok` touches only the two vocabulary maps and `nextId`. -/
theorem insertTok_fields (s : Tokenizer) (t : Tok) :
    (insertTok s t).merges = s.merges ∧ (insertTok s t).lower = s.lower ∧
      (insertTok s t).specialTokens = s.specialTokens ∧
      (insertTok s t).counts = s.counts := by
  unfold insertTok
  by_cases h : (getAssoc s.tokenToId t).isSome <;> simp [h]

theorem foldl_insertTok_fields :
    ∀ (toks : List Tok) (s : Tokenizer),
      (toks.foldl insertTok s).merges = s.merges ∧
        (toks.foldl insertTok s).lower = s.lower ∧
        (toks.foldl insertTok s).specialTokens = s.specialTokens ∧
        (toks.foldl insertTok s).counts = s.counts := by
  intro toks
  induction toks with
  | nil => intro s; exact ⟨rfl, rfl, rfl, rfl⟩
  | cons t rest ih =>
    intro s
    simp only [List.foldl_cons]
    obtain ⟨h1, h2, h3, h4⟩ := ih (insertTok s t)
    obtain ⟨g1, g2, g3, g4⟩ := insertTok_fields s t
    exact ⟨h1.trans g1, h2.trans g2, h3.trans g3, h4.trans g4⟩

/-- The merge table of a trained tokenizer is the first projection of the
training-loop trace. -/
theorem trainFromText_merges (s : Tokenizer) (text : List Char) (mf mo : Nat) :
    (trainFromText s text mf mo).merges =
      (trainLoop mf mo (initialCounts s.lower text)).1.map Prod.fst := by
  unfold trainFromText
  have := (foldl_insertTok_fields
    (jsSetOfList (s.specialTokens ++
      ((trainLoop mf mo (initialCounts s.lower text)).2.map Prod.fst).flatten))
    (initSpecials { s with
      merges := (trainLoop mf mo (initialCounts s.lower text)).1.map Prod.fst,
      counts := (trainLoop mf mo (initialCounts s.lower text)).2 })).1
  simpa [initSpecials] using this

/-! ## Claim theorems: training -/

/-- C4: with `minFrequency ≥ 1`, training appends at most `mergeOps` merge
rules; every selected rule's aggregate pair frequency, computed just before
selection, is at least `minFrequency` (the trace pairs each merge with that
frequency and the merge table is its first projection); and an iteration of
the loop stops exactly when the pair table is empty or the best count falls
below `minFrequency`. -/
theorem c4_training_bounds (s : Tokenizer) (text : List Char) (mf mo : Nat)
    (h1 : 1 ≤ mf) :
    (trainFromText s text mf mo).merges.length ≤ mo ∧
    (trainFromText s text mf mo).merges =
      (trainLoop mf mo (initialCounts s.lower text)).1.map Prod.fst ∧
    (∀ x ∈ (trainLoop mf mo (initialCounts s.lower text)).1, mf ≤ x.2) ∧
    (∀ (counts : List (List Piece × Nat)) (fuel : Nat),
      (trainLoop mf (fuel + 1) counts).1 = [] ↔
        buildPairCounts counts mf = [] ∨
        ∃ pr c, selectBest (buildPairCounts counts mf) = some (pr, c) ∧ c < mf) := by
  refine ⟨?_, trainFromText_merges s text mf mo,
    trainLoop_trace_ge mf mo (initialCounts s.lower text),
    fun counts fuel => trainLoop_stop_iff mf h1 fuel counts⟩
  rw [trainFromText_merges s text mf mo, List.length_map]
  exact trainLoop_length mf mo (initialCounts s.lower text)

theorem c4_training_bounds_witness :
    1 ≤ 2 ∧
      (trainFromText (construct true defaultSpecials [] [])
        "low low low lower lowest".toList 2 5).merges.length ≤ 5 :=
  ⟨by decide,
    (c4_training_bounds (construct true defaultSpecials [] [])
      "low low low lower lowest".toList 2 5 (by decide)).1⟩

/-- C5: `trainFromText` is deterministic — it reads nothing of the prior
state except the configuration fields `lower` and `specialTokens` (counts,
merges and both vocabulary maps are rebuilt from scratch), so two tokenizers
agreeing on those fields train to the same state: identical merge table,
identical token-to-id and id-to-token maps. -/
theorem c5_training_deterministic (s1 s2 : Tokenizer) (text : List Char)
    (mf mo : Nat) (hl : s1.lower = s2.lower)
    (hs : s1.specialTokens = s2.specialTokens) :
    trainFromText s1 text mf mo = trainFromText s2 text mf mo ∧
      (trainFromText s1 text mf mo).merges = (trainFromText s2 text mf mo).merges ∧
      (trainFromText s1 text mf mo).tokenToId =
        (trainFromText s2 text mf mo).tokenToId ∧
      (trainFromText s1 text mf mo).idToToken =
        (trainFromText s2 text mf mo).idToToken := by
  obtain ⟨l1, sp1, tt1, it1, m1, c1, n1⟩ := s1
  obtain ⟨l2, sp2, tt2, it2, m2, c2, n2⟩ := s2
  simp only at hl hs
  subst hl; subst hs
  have h : trainFromText ⟨l1, sp1, tt1, it1, m1, c1, n1⟩ text mf mo =
      trainFromText ⟨l1, sp1, tt2, it2, m2, c2, n2⟩ text mf mo := by
    simp [trainFromText, initSpecials]
  exact ⟨h, congrArg Tokenizer.merges h, congrArg Tokenizer.tokenToId h,
    congrArg Tokenizer.idToToken h⟩

theorem c5_training_deterministic_witness :
    (construct true defaultSpecials [] []).lower =
        (construct true defaultSpecials [] [("x".toList, Jv.num 9)]).lower ∧
      (construct true defaultSpecials [] []).specialTokens =
        (construct true defaultSpecials [] [("x".toList, Jv.num 9)]).specialTokens ∧
      trainFromText (construct true defaultSpecials [] []) "a b a".toList 2 3 =
        trainFromText (construct true defaultSpecials [] [("x".toList, Jv.num 9)])
          "a b a".toList 2 3 :=
  ⟨by decide, by decide,
    (c5_training_deterministic (construct true defaultSpecials [] [])
      (construct true defaultSpecials [] [("x".toList, Jv.num 9)])
      "a b a".toList 2 3 (by decide) (by decide)).1⟩

/-! ## The canonical shape of the vocabulary maps -/

theorem enumFrom_append (k : Nat) (L1 L2 : List Tok) :
    enumFrom k (L1 ++ L2) = enumFrom k L1 ++ enumFrom (k + L1.length) L2 := by
  induction L1 generalizing k with
  | nil => simp [enumFrom]
  | cons t ts ih =>
    show (t, Jv.num k) :: enumFrom (k + 1) (ts ++ L2)
        = ((t, Jv.num k) :: enumFrom (k + 1) ts) ++ enumFrom (k + (t :: ts).length) L2
    rw [ih (k + 1)]
    have h : k + 1 + ts.length = k + (t :: ts).length := by simp; omega
    rw [h]
    rfl

theorem enumFromInv_append (k : Nat) (L1 L2 : List Tok) :
    enumFromInv k (L1 ++ L2) = enumFromInv k L1 ++ enumFromInv (k + L1.length) L2 := by
  induction L1 generalizing k with
  | nil => simp [enumFromInv]
  | cons t ts ih =>
    show (Jv.num k, t) :: enumFromInv (k + 1) (ts ++ L2)
        = ((Jv.num k, t) :: enumFromInv (k + 1) ts) ++ enumFromInv (k + (t :: ts).length) L2
    rw [ih (k + 1)]
    have h : k + 1 + ts.length = k + (t :: ts).length := by simp; omega
    rw [h]
    rfl

theorem getAssoc_enumFrom_none_iff (k : Nat) (L : List Tok) (q : Tok) :
    getAssoc (enumFrom k L) q = none ↔ q ∉ L := by
  induction L generalizing k with
  | nil => simp [enumFrom, getAssoc]
  | cons t ts ih =>
    simp only [enumFrom, getAssoc, List.mem_cons]
    by_cases h : t = q
    · simp [h]
    · simp only [h, if_false, ih (k + 1)]
      constructor
      · intro hq
        rintro (he | hm)
        · exact h he.symm
        · exact hq hm
      · intro hq hm
        exact hq (Or.inr hm)

theorem getAssoc_enumFromInv_num_ge (k : Nat) (L : List Tok) (j : Nat)
    (h : k + L.length ≤ j) :
    getAssoc (enumFromInv k L) (Jv.num j) = none := by
  induction L generalizing k with
  | nil => rfl
  | cons t ts ih =>
    simp only [enumFromInv, getAssoc]
    have hne : ¬(Jv.num k = Jv.num j) := by
      simp only [Jv.num.injEq]
      intro he
      have : k = j := by exact_mod_cast he
      simp only [List.length_cons] at h
      omega
    rw [if_neg hne]
    exact ih (k + 1) (by simp only [List.length_cons] at h; omega)

theorem getAssoc_enumFromInv_nonnum (k : Nat) (L : List Tok) (v : Jv)
    (h : ∀ j : Nat, v ≠ Jv.num j) :
    getAssoc (enumFromInv k L) v = none := by
  induction L generalizing k with
  | nil => rfl
  | cons t ts ih =>
    simp only [enumFromInv, getAssoc]
    rw [if_neg (fun he => h k he.symm)]
    exact ih (k + 1)

theorem getAssoc_enumFrom_get (L : List Tok) (hnd : L.Nodup) (k i : Nat)
    (hi : i < L.length) :
    getAssoc (enumFrom k L) (L.get ⟨i, hi⟩) = some (Jv.num (k + i)) := by
  induction L generalizing k i with
  | nil => simp at hi
  | cons t ts ih =>
    cases i with
    | zero => simp [enumFrom, getAssoc]
    | succ i =>
      have hne : t ≠ ts.get ⟨i, by simpa using hi⟩ := by
        intro he
        have : t ∈ ts := by rw [he]; exact List.get_mem ts i (by simpa using hi)
        exact (List.nodup_cons.mp hnd).1 this
      simp only [enumFrom, getAssoc, List.get_cons_succ]
      rw [if_neg hne]
      have := ih (List.nodup_cons.mp hnd).2 (k + 1) i (by simpa using hi)
      rw [this]
      congr 2
      omega

theorem getAssoc_enumFromInv_get (L : List Tok) (k i : Nat) (hi : i < L.length) :
    getAssoc (enumFromInv k L) (Jv.num (k + i)) = some (L.get ⟨i, hi⟩) := by
  induction L generalizing k i with
  | nil => simp at hi
  | cons t ts ih =>
    cases i with
    | zero => simp [enumFromInv, getAssoc]
    | succ i =>
      simp only [enumFromInv, getAssoc, List.get_cons_succ]
      rw [if_neg (by simp only [Jv.num.injEq]; push_cast; omega)]
      have hkey : (Jv.num ((k : Int) + (i + 1 : Nat)) : Jv)
          = Jv.num (((k + 1 : Nat) : Int) + (i : Nat)) := by
        congr 1
        push_cast
        omega
      rw [hkey]
      exact ih (k + 1) i (by simpa using hi)

theorem getAssoc_enumFrom_some (L : List Tok) (k : Nat) (q : Tok) (v : Jv)
    (h : getAssoc (enumFrom k L) q = some v) :
    ∃ i, ∃ hi : i < L.length, L.get ⟨i, hi⟩ = q ∧ v = Jv.num (k + i) := by
  induction L generalizing k with
  | nil => simp [enumFrom, getAssoc] at h
  | cons t ts ih =>
    simp only [enumFrom, getAssoc] at h
    by_cases he : t = q
    · rw [if_pos he] at h
      injection h with h'
      exact ⟨0, by simp, by simpa using he, by simp [h'.symm]⟩
    · rw [if_neg he] at h
      obtain ⟨i, hi, hg, hv⟩ := ih (k + 1) h
      refine ⟨i + 1, by simpa using hi, by simpa using hg, ?_⟩
      rw [hv]
      congr 1
      omega

theorem getAssoc_enumFromInv_some (L : List Tok) (k : Nat) (v : Jv) (q : Tok)
    (h : getAssoc (enumFromInv k L) v = some q) :
    ∃ i, ∃ hi : i < L.length, v = Jv.num (k + i) ∧ L.get ⟨i, hi⟩ = q := by
  induction L generalizing k with
  | nil => simp [enumFromInv, getAssoc] at h
  | cons t ts ih =>
    simp only [enumFromInv, getAssoc] at h
    by_cases he : Jv.num k = v
    · rw [if_pos he] at h
      injection h with h'
      exact ⟨0, by simp, by simp [he.symm], by simpa using h'⟩
    · rw [if_neg he] at h
      obtain ⟨i, hi, hv, hg⟩ := ih (k + 1) h
      refine ⟨i + 1, by simpa using hi, ?_, by simpa using hg⟩
      rw [hv]
      congr 1
      omega

/-- The inverse map is the entrywise swap (with `Number` applied to the id,
a no-op on numbers) of the forward map. -/
theorem enumFromInv_eq_map (k : Nat) (L : List Tok) :
    (enumFrom k L).map (fun tv => (jsNumber tv.2, tv.1)) = enumFromInv k L := by
  induction L generalizing k with
  | nil => rfl
  | cons t ts ih =>
    show (jsNumber (Jv.num k), t) ::
          (enumFrom (k + 1) ts).map (fun tv => (jsNumber tv.2, tv.1))
        = (Jv.num k, t) :: enumFromInv (k + 1) ts
    rw [ih (k + 1)]
    rfl

/-- The `_initSpecials` fold extends canonical maps by the remaining special
tokens, provided all names stay distinct. -/
theorem specialsFold :
    ∀ (sp pre : List Tok), (pre ++ sp).Nodup →
      sp.foldl
        (fun (acc : (List (Tok × Jv) × List (Jv × Tok)) × Nat) st =>
          ((setAssoc acc.1.1 st (Jv.num acc.2), setAssoc acc.1.2 (Jv.num acc.2) st),
            acc.2 + 1))
        ((enumFrom 0 pre, enumFromInv 0 pre), pre.length)
      = ((enumFrom 0 (pre ++ sp), enumFromInv 0 (pre ++ sp)), (pre ++ sp).length) := by
  intro sp
  induction sp with
  | nil => intro pre h; simp
  | cons t ts ih =>
    intro pre h
    have hmem : t ∉ pre := by
      rcases List.nodup_append.mp h with ⟨-, -, hdisj⟩
      intro hin
      exact hdisj hin (by simp)
    have h1 : setAssoc (enumFrom 0 pre) t (Jv.num pre.length)
        = enumFrom 0 (pre ++ [t]) := by
      rw [setAssoc_fresh _ _ _ ((getAssoc_enumFrom_none_iff 0 pre t).mpr hmem)]
      rw [enumFrom_append]
      simp [enumFrom]
    have h2 : setAssoc (enumFromInv 0 pre) (Jv.num pre.length) t
        = enumFromInv 0 (pre ++ [t]) := by
      rw [setAssoc_fresh _ _ _ (getAssoc_enumFromInv_num_ge 0 pre pre.length (by omega))]
      rw [enumFromInv_append]
      simp [enumFromInv]
    have hnd' : ((pre ++ [t]) ++ ts).Nodup := by
      have : pre ++ t :: ts = (pre ++ [t]) ++ ts := by simp
      rwa [this] at h
    simp only [List.foldl_cons]
    have hlen : pre.length + 1 = (pre ++ [t]).length := by simp
    rw [show ((setAssoc (enumFrom 0 pre) t (Jv.num pre.length),
          setAssoc (enumFromInv 0 pre) (Jv.num pre.length) t), pre.length + 1)
        = ((enumFrom 0 (pre ++ [t]), enumFromInv 0 (pre ++ [t])),
          (pre ++ [t]).length) from by rw [h1, h2, hlen]]
    rw [ih (pre ++ [t]) hnd']
    have hassoc : (pre ++ [t]) ++ ts = pre ++ t :: ts := by simp
    rw [hassoc]

/-- `_initSpecials` on a tokenizer with distinct special tokens produces the
canonical maps assigning ids `0..n-1` in declaration order. -/
theorem initSpecials_spec (s : Tokenizer) (hnd : s.specialTokens.Nodup) :
    (initSpecials s).tokenToId = enumFrom 0 s.specialTokens ∧
      (initSpecials s).idToToken = enumFromInv 0 s.specialTokens ∧
      (initSpecials s).nextId = Jv.num s.specialTokens.length ∧
      (initSpecials s).lower = s.lower ∧
      (initSpecials s).specialTokens = s.specialTokens ∧
      (initSpecials s).merges = s.merges ∧
      (initSpecials s).counts = s.counts := by
  have h := specialsFold s.specialTokens [] (by simpa using hnd)
  simp only [List.nil_append] at h
  unfold initSpecials
  rw [show ((([], []) : List (Tok × Jv) × List (Jv × Tok)), 0)
      = ((enumFrom 0 [], enumFromInv 0 []), ([] : List Tok).length) from rfl]
  rw [h]
  exact ⟨rfl, rfl, rfl, rfl, rfl, rfl, rfl⟩

/-- The post-training insertion fold keeps the canonical map shape, appending
only fresh tokens. -/
theorem insertFold_spec :
    ∀ (toks : List Tok) (s : Tokenizer) (L : List Tok),
      L.Nodup → s.tokenToId = enumFrom 0 L → s.idToToken = enumFromInv 0 L →
      s.nextId = Jv.num L.length →
      ∃ ext : List Tok,
        (L ++ ext).Nodup ∧
        (toks.foldl insertTok s).tokenToId = enumFrom 0 (L ++ ext) ∧
        (toks.foldl insertTok s).idToToken = enumFromInv 0 (L ++ ext) ∧
        (toks.foldl insertTok s).nextId = Jv.num (L ++ ext).length := by
  intro toks
  induction toks with
  | nil =>
    intro s L hnd h1 h2 h3
    exact ⟨[], by simpa using hnd, by simpa using h1, by simpa using h2,
      by simpa using h3⟩
  | cons t ts ih =>
    intro s L hnd h1 h2 h3
    simp only [List.foldl_cons]
    by_cases hmem : t ∈ L
    · have hsome : (getAssoc s.tokenToId t).isSome := by
        rw [h1]
        rcases Option.eq_none_or_eq_some (getAssoc (enumFrom 0 L) t) with hn | ⟨v, hv⟩
        · exact absurd ((getAssoc_enumFrom_none_iff 0 L t).mp hn) (by simpa using hmem)
        · simp [hv]
      have hskip : insertTok s t = s := by
        unfold insertTok
        simp [hsome]
      rw [hskip]
      exact ih s L hnd h1 h2 h3
    · have hnone : getAssoc s.tokenToId t = none := by
        rw [h1]
        exact (getAssoc_enumFrom_none_iff 0 L t).mpr hmem
      have hstep : insertTok s t =
          { s with tokenToId := setAssoc s.tokenToId t s.nextId,
                   idToToken := setAssoc s.idToToken s.nextId t,
                   nextId := jvInc s.nextId } := by
        unfold insertTok
        simp [hnone]
      rw [hstep]
      have g1 : setAssoc s.tokenToId t s.nextId = enumFrom 0 (L ++ [t]) := by
        rw [h1, h3, setAssoc_fresh _ _ _ ((getAssoc_enumFrom_none_iff 0 L t).mpr hmem)]
        rw [enumFrom_append]
        simp [enumFrom]
      have g2 : setAssoc s.idToToken s.nextId t = enumFromInv 0 (L ++ [t]) := by
        rw [h2, h3, setAssoc_fresh _ _ _
          (getAssoc_enumFromInv_num_ge 0 L L.length (by omega))]
        rw [enumFromInv_append]
        simp [enumFromInv]
      have g3 : jvInc s.nextId = Jv.num (L ++ [t]).length := by
        rw [h3]
        show Jv.num ((L.length : Int) + 1) = Jv.num ((L ++ [t]).length : Int)
        congr 1
        simp
      have hnd' : (L ++ [t]).Nodup := by
        simp only [List.nodup_append, List.nodup_cons, List.not_mem_nil,
          not_false_iff, List.nodup_nil, and_true, true_and]
        simp only [List.disjoint_singleton]
        exact ⟨hnd, hmem⟩
      obtain ⟨ext, he1, he2, he3, he4⟩ := ih
        { s with tokenToId := setAssoc s.tokenToId t s.nextId,
                 idToToken := setAssoc s.idToToken s.nextId t,
                 nextId := jvInc s.nextId }
        (L ++ [t]) hnd' (by simpa using g1) (by simpa using g2) (by simpa using g3)
      refine ⟨[t] ++ ext, ?_, ?_, ?_, ?_⟩
      · rw [← List.append_assoc]; exact he1
      · rw [← List.append_assoc]; exact he2
      · rw [← List.append_assoc]; exact he3
      · rw [← List.append_assoc]; exact he4

/-- The vocabulary maps of a trained tokenizer are the canonical enumeration
of a duplicate-free token list that starts with the special tokens. -/
theorem trainFromText_structure (s : Tokenizer) (text : List Char) (mf mo : Nat)
    (hnd : s.specialTokens.Nodup) :
    ∃ L : List Tok, L.Nodup ∧ (∃ ext, L = s.specialTokens ++ ext) ∧
      (trainFromText s text mf mo).tokenToId = enumFrom 0 L ∧
      (trainFromText s text mf mo).idToToken = enumFromInv 0 L ∧
      (trainFromText s text mf mo).nextId = Jv.num L.length ∧
      (trainFromText s text mf mo).lower = s.lower ∧
      (trainFromText s text mf mo).specialTokens = s.specialTokens ∧
      (trainFromText s text mf mo).merges =
        (trainLoop mf mo (initialCounts s.lower text)).1.map Prod.fst := by
  have hmerges := trainFromText_merges s text mf mo
  unfold trainFromText
  set M := (trainLoop mf mo (initialCounts s.lower text)).1.map Prod.fst with hM
  set C := (trainLoop mf mo (initialCounts s.lower text)).2 with hC
  set s1 := initSpecials { s with merges := M, counts := C } with hs1
  have hsp : ({ s with merges := M, counts := C } : Tokenizer).specialTokens
      = s.specialTokens := rfl
  obtain ⟨i1, i2, i3, i4, i5, i6, i7⟩ :=
    initSpecials_spec { s with merges := M, counts := C } (by rwa [hsp])
  rw [hsp] at i1 i2 i3 i5
  set toks := jsSetOfList (s.specialTokens ++ (C.map Prod.fst).flatten) with htoks
  obtain ⟨ext, e1, e2, e3, e4⟩ :=
    insertFold_spec toks s1 s.specialTokens hnd i1 i2 i3
  obtain ⟨f1, f2, f3, -⟩ := foldl_insertTok_fields toks s1
  refine ⟨s.specialTokens ++ ext, e1, ⟨ext, rfl⟩, ?_, ?_, ?_, ?_, ?_, ?_⟩
  · exact e2
  · exact e3
  · exact e4
  · rw [f2, i4]
  · rw [f3, i5]
  · rw [f1, i6]

/-- `encode` reads only `lower`, `merges` and `tokenToId`. -/
theorem encode_eq_of_fields (s1 s2 : Tokenizer) (h1 : s1.lower = s2.lower)
    (h2 : s1.merges = s2.merges) (h3 : s1.tokenToId = s2.tokenToId)
    (text : List Char) (ab ks : Bool) :
    encode s1 text ab ks = encode s2 text ab ks := by
  obtain ⟨l1, sp1, tt1, it1, m1, c1, n1⟩ := s1
  obtain ⟨l2, sp2, tt2, it2, m2, c2, n2⟩ := s2
  simp only at h1 h2 h3
  subst h1; subst h2; subst h3
  rfl

/-- `decode` reads only `idToToken` and `specialTokens`. -/
theorem decode_eq_of_fields (s1 s2 : Tokenizer) (h1 : s1.idToToken = s2.idToToken)
    (h2 : s1.specialTokens = s2.specialTokens)
    (ids : List (Option Jv)) (sk : Bool) :
    decode s1 ids sk = decode s2 ids sk := by
  obtain ⟨l1, sp1, tt1, it1, m1, c1, n1⟩ := s1
  obtain ⟨l2, sp2, tt2, it2, m2, c2, n2⟩ := s2
  simp only at h1 h2
  subst h1; subst h2
  rfl

/-! ## Claim theorems: the vocabulary and the artifact round trip -/

/-- C6: after training (with the special-token list duplicate-free, as the
fixed default list is), the vocabulary is a bijection: the special tokens
hold ids `0..n-1` in declaration order in both maps, the two maps are exact
inverses, every non-special token's id is a natural number `≥ n`, no two
tokens share an id, and no token maps to two ids. -/
theorem c6_vocab_bijection (s : Tokenizer) (text : List Char) (mf mo : Nat)
    (hnd : s.specialTokens.Nodup) :
    (∀ i (hi : i < s.specialTokens.length),
      getAssoc (trainFromText s text mf mo).tokenToId
          (s.specialTokens.get ⟨i, hi⟩) = some (Jv.num i) ∧
        getAssoc (trainFromText s text mf mo).idToToken (Jv.num i)
          = some (s.specialTokens.get ⟨i, hi⟩)) ∧
    (∀ t v, getAssoc (trainFromText s text mf mo).tokenToId t = some v ↔
      getAssoc (trainFromText s text mf mo).idToToken v = some t) ∧
    (∀ t v, getAssoc (trainFromText s text mf mo).tokenToId t = some v →
      t ∉ s.specialTokens →
      ∃ k : Nat, v = Jv.num k ∧ s.specialTokens.length ≤ k) ∧
    (∀ t1 t2 v, getAssoc (trainFromText s text mf mo).tokenToId t1 = some v →
      getAssoc (trainFromText s text mf mo).tokenToId t2 = some v → t1 = t2) ∧
    (∀ t v1 v2, getAssoc (trainFromText s text mf mo).tokenToId t = some v1 →
      getAssoc (trainFromText s text mf mo).tokenToId t = some v2 → v1 = v2) := by
  obtain ⟨L, hLnd, ⟨ext, hLsp⟩, hTT, hIT, -, -, -, -⟩ :=
    trainFromText_structure s text mf mo hnd
  subst hLsp
  have hbij : ∀ t v, getAssoc (trainFromText s text mf mo).tokenToId t = some v ↔
      getAssoc (trainFromText s text mf mo).idToToken v = some t := by
    intro t v
    rw [hTT, hIT]
    constructor
    · intro h
      obtain ⟨i, hi, hg, hv⟩ :=
        getAssoc_enumFrom_some (s.specialTokens ++ ext) 0 t v h
      rw [hv]
      rw [getAssoc_enumFromInv_get (s.specialTokens ++ ext) 0 i hi]
      rw [hg]
    · intro h
      obtain ⟨i, hi, hv, hg⟩ :=
        getAssoc_enumFromInv_some (s.specialTokens ++ ext) 0 v t h
      rw [← hg, hv]
      exact getAssoc_enumFrom_get (s.specialTokens ++ ext) hLnd 0 i hi
  refine ⟨?_, hbij, ?_, ?_, ?_⟩
  · intro i hi
    have hiL : i < (s.specialTokens ++ ext).length := by
      simp only [List.length_append]
      omega
    have hget : (s.specialTokens ++ ext).get ⟨i, hiL⟩ = s.specialTokens.get ⟨i, hi⟩ :=
      List.get_append i hi
    have h1 := getAssoc_enumFrom_get (s.specialTokens ++ ext) hLnd 0 i hiL
    have h2 := getAssoc_enumFromInv_get (s.specialTokens ++ ext) 0 i hiL
    rw [hget] at h1 h2
    have hnum : (Jv.num ((0 : Nat) + i) : Jv) = Jv.num i := by
      congr 1
      push_cast
      omega
    rw [hnum] at h1 h2
    exact ⟨by rw [hTT]; exact h1, by rw [hIT]; exact h2⟩
  · intro t v h hns
    rw [hTT] at h
    obtain ⟨i, hi, hg, hv⟩ := getAssoc_enumFrom_some (s.specialTokens ++ ext) 0 t v h
    refine ⟨i, by rw [hv]; congr 1; push_cast; omega, ?_⟩
    by_contra hlt
    push_neg at hlt
    have hisp : i < s.specialTokens.length := hlt
    have hmem : (s.specialTokens ++ ext).get ⟨i, hi⟩ ∈ s.specialTokens := by
      rw [List.get_append i hisp]
      exact List.get_mem _ _ _
    rw [hg] at hmem
    exact hns hmem
  · intro t1 t2 v h1 h2
    have g1 := (hbij t1 v).mp h1
    have g2 := (hbij t2 v).mp h2
    rw [g1] at g2
    injection g2
  · intro t v1 v2 h1 h2
    rw [h1] at h2
    injection h2

theorem c6_vocab_bijection_witness :
    defaultSpecials.Nodup ∧
      getAssoc
          (trainFromText (construct true defaultSpecials [] []) "a b a".toList 2 3).tokenToId
          ("<PAD>".toList) = some (Jv.num 0) :=
  ⟨by decide,
    by
      have h := (c6_vocab_bijection (construct true defaultSpecials [] [])
        "a b a".toList 2 3 (by decide)).1 0 (by decide)
      exact h.1⟩

/-- C2: for a trained tokenizer (with distinct special tokens), saving and
re-loading the `{meta, vocab, merges}` artifact — into any receiver
instance — yields a tokenizer whose `encode` and `decode` agree with the
original on every input text and every id sequence. -/
theorem c2_save_load_roundtrip (s0 s : Tokenizer) (text : List Char) (mf mo : Nat)
    (hnd : s.specialTokens.Nodup) (input : List Char) (ab ks : Bool)
    (ids : List (Option Jv)) (sk : Bool) :
    encode (load s0 (save (trainFromText s text mf mo))) input ab ks
        = encode (trainFromText s text mf mo) input ab ks ∧
      decode (load s0 (save (trainFromText s text mf mo))) ids sk
        = decode (trainFromText s text mf mo) ids sk := by
  obtain ⟨L, -, -, hTT, hIT, -, -, -, -⟩ := trainFromText_structure s text mf mo hnd
  have hload_it : (load s0 (save (trainFromText s text mf mo))).idToToken
      = (trainFromText s text mf mo).idToToken := by
    show ((save (trainFromText s text mf mo)).vocab).map
        (fun tv => (jsNumber tv.2, tv.1)) = (trainFromText s text mf mo).idToToken
    rw [show (save (trainFromText s text mf mo)).vocab
        = (trainFromText s text mf mo).tokenToId from rfl]
    rw [hTT, enumFromInv_eq_map, ← hIT]
  exact ⟨encode_eq_of_fields _ _ rfl rfl rfl input ab ks,
    decode_eq_of_fields _ _ hload_it rfl ids sk⟩

theorem c2_save_load_roundtrip_witness :
    defaultSpecials.Nodup ∧
      encode
          (load (construct true defaultSpecials [] [])
            (save (trainFromText (construct true defaultSpecials [] [])
              "low low low lower lowest".toList 2 5)))
          "low lowest".toList true true
        = encode
            (trainFromText (construct true defaultSpecials [] [])
              "low low low lower lowest".toList 2 5)
            "low lowest".toList true true :=
  ⟨by decide,
    (c2_save_load_roundtrip (construct true defaultSpecials [] [])
      (construct true defaultSpecials [] []) "low low low lower lowest".toList 2 5
      (by decide) "low lowest".toList true true [] true).1⟩

/-! ## Claim theorems: artifact loading and unknown handling -/

/-- C3 counterexample: the claim says a malformed (non-numeric) id entry is
skipped by `load` and enters neither map; in fact `load` keeps the raw entry
in `tokenToId` and keys it by NaN in `idToToken`. -/
theorem c3_load_counterexample :
    getAssoc
        (load (construct true defaultSpecials [] [])
          { lower := true, specialTokens := defaultSpecials,
            vocab := [("x".toList, Jv.str "abc".toList)],
            merges := [] }).tokenToId "x".toList
      = some (Jv.str "abc".toList) ∧
    getAssoc
        (load (construct true defaultSpecials [] [])
          { lower := true, specialTokens := defaultSpecials,
            vocab := [("x".toList, Jv.str "abc".toList)],
            merges := [] }).idToToken Jv.nan
      = some ("x".toList) := by
  exact ⟨by decide, by decide⟩

/-- The `_initSpecials` fold never creates a binding, in either direction,
for a token outside the special list. -/
theorem initSpecials_fresh (s : Tokenizer) (t : Tok)
    (h : t ∉ s.specialTokens) :
    getAssoc (initSpecials s).tokenToId t = none ∧
      ∀ j, getAssoc (initSpecials s).idToToken j ≠ some t := by
  suffices hgen : ∀ (sp : List Tok) (acc : (List (Tok × Jv) × List (Jv × Tok)) × Nat),
      t ∉ sp → getAssoc acc.1.1 t = none → (∀ j, getAssoc acc.1.2 j ≠ some t) →
      getAssoc (sp.foldl
        (fun (acc : (List (Tok × Jv) × List (Jv × Tok)) × Nat) st =>
          ((setAssoc acc.1.1 st (Jv.num acc.2), setAssoc acc.1.2 (Jv.num acc.2) st),
            acc.2 + 1))
        acc).1.1 t = none ∧
      ∀ j, getAssoc (sp.foldl
        (fun (acc : (List (Tok × Jv) × List (Jv × Tok)) × Nat) st =>
          ((setAssoc acc.1.1 st (Jv.num acc.2), setAssoc acc.1.2 (Jv.num acc.2) st),
            acc.2 + 1))
        acc).1.2 j ≠ some t by
    exact hgen s.specialTokens (([], []), 0) h rfl (fun j => by simp [getAssoc])
  intro sp
  induction sp with
  | nil => intro acc _ h1 h2; exact ⟨h1, h2⟩
  | cons st rest ih =>
    intro acc hmem h1 h2
    simp only [List.foldl_cons]
    refine ih _ (fun h' => hmem (List.mem_cons_of_mem _ h')) ?_ ?_
    · rw [getAssoc_setAssoc]
      rw [if_neg (fun h' => hmem (by simp [h']))]
      exact h1
    · intro j
      rw [getAssoc_setAssoc]
      by_cases hj : j = Jv.num acc.2
      · rw [if_pos hj]
        intro h'
        injection h' with h''
        exact hmem (by simp [h''])
      · rw [if_neg hj]
        exact h2 j

/-- The constructor's vocab fold skips every entry whose id is non-numeric:
such a token acquires no binding, in either direction. -/
theorem constructFold_skips (t : Tok) :
    ∀ (vocab : List (Tok × Jv)) (st : Tokenizer),
      (∀ tv ∈ vocab, tv.1 = t → jsNumber tv.2 = Jv.nan) →
      getAssoc st.tokenToId t = none →
      (∀ j, getAssoc st.idToToken j ≠ some t) →
      getAssoc
          ((vocab.foldl
            (fun s tv =>
              match jsNumber tv.2 with
              | .num n =>
                { s with tokenToId := setAssoc s.tokenToId tv.1 (Jv.num n),
                         idToToken := setAssoc s.idToToken (Jv.num n) tv.1 }
              | _ => s)
            st)).tokenToId t = none ∧
        ∀ j, getAssoc
          ((vocab.foldl
            (fun s tv =>
              match jsNumber tv.2 with
              | .num n =>
                { s with tokenToId := setAssoc s.tokenToId tv.1 (Jv.num n),
                         idToToken := setAssoc s.idToToken (Jv.num n) tv.1 }
              | _ => s)
            st)).idToToken j ≠ some t := by
  intro vocab
  induction vocab with
  | nil => intro st _ h1 h2; exact ⟨h1, h2⟩
  | cons tv rest ih =>
    intro st hmal h1 h2
    simp only [List.foldl_cons]
    cases hj : jsNumber tv.2 with
    | num n =>
      by_cases he : tv.1 = t
      · exact absurd (hmal tv (by simp) he) (by simp [hj])
      · refine ih _ (fun tv' h' he' => hmal tv' (by simp [h']) he') ?_ ?_
        · rw [getAssoc_setAssoc, if_neg (fun h' => he h'.symm)]
          exact h1
        · intro j
          rw [getAssoc_setAssoc]
          by_cases hjn : j = Jv.num n
          · rw [if_pos hjn]
            intro h'
            injection h' with h''
            exact he h''
          · rw [if_neg hjn]
            exact h2 j
    | nan => exact ih st (fun tv' h' he' => hmal tv' (by simp [h']) he') h1 h2
    | str s' => exact ih st (fun tv' h' he' => hmal tv' (by simp [h']) he') h1 h2

/-- C3 amended: `load` is total and performs no id validation — `tokenToId`
becomes exactly the raw artifact entries (malformed values included) and
`idToToken` keys each token by `Number(id)`, NaN for malformed ids; the
skipping of non-numeric ids happens only in the constructor's vocab option,
where such a token enters neither direction of the mapping. -/
theorem c3_load_malformed_amended (s0 : Tokenizer) (a : Artifact) (lower : Bool)
    (sp : List Tok) (mg : List (Piece × Piece)) (vocab : List (Tok × Jv)) (t : Tok)
    (h1 : t ∉ sp) (h2 : ∀ tv ∈ vocab, tv.1 = t → jsNumber tv.2 = Jv.nan) :
    (load s0 a).tokenToId = a.vocab ∧
      (load s0 a).idToToken = a.vocab.map (fun tv => (jsNumber tv.2, tv.1)) ∧
      getAssoc (construct lower sp mg vocab).tokenToId t = none ∧
      (∀ j, getAssoc (construct lower sp mg vocab).idToToken j ≠ some t) := by
  have hinit := initSpecials_fresh
    { lower := lower, specialTokens := sp, tokenToId := [], idToToken := [],
      merges := mg, counts := [], nextId := Jv.num 0 } t h1
  have hc := constructFold_skips t vocab
    (initSpecials
      { lower := lower, specialTokens := sp, tokenToId := [], idToToken := [],
        merges := mg, counts := [], nextId := Jv.num 0 })
    h2 hinit.1 hinit.2
  exact ⟨rfl, rfl, hc.1, hc.2⟩

theorem c3_load_malformed_amended_witness :
    ("x".toList ∉ defaultSpecials) ∧
      getAssoc
          (construct true defaultSpecials []
            [("x".toList, Jv.str "abc".toList)]).tokenToId "x".toList = none :=
  ⟨by decide,
    (c3_load_malformed_amended (construct true defaultSpecials [] [])
      { lower := true, specialTokens := defaultSpecials,
        vocab := [("x".toList, Jv.str "abc".toList)], merges := [] }
      true defaultSpecials [] [("x".toList, Jv.str "abc".toList)] "x".toList
      (by decide) (by decide)).2.2.1⟩

/-- C8: a non-whitespace piece absent from the vocabulary is encoded as the
unknown-token id: the element pushed for it is exactly the `'<UNK>'` lookup,
and that element occurs in the output id list; `encode` is a total function,
so no failure is surfaced. -/
theorem c8_unknown_to_unk (s : Tokenizer) (text : List Char) (ab ks : Bool)
    (p : Piece) (hp : p ∈ tokenize s text) (hws : wsRun p = false)
    (hmiss : getAssoc s.tokenToId p = none) :
    encodePiece s ks p = some (getAssoc s.tokenToId unkTok) ∧
      (getAssoc s.tokenToId unkTok) ∈ encode s text ab ks := by
  have h1 : encodePiece s ks p = some (getAssoc s.tokenToId unkTok) := by
    unfold encodePiece
    rw [hws]
    simp only [Bool.false_eq_true, if_false]
    rw [hmiss]
    rfl
  refine ⟨h1, ?_⟩
  have h2 : (getAssoc s.tokenToId unkTok) ∈
      (tokenize s text).filterMap (encodePiece s ks) :=
    List.mem_filterMap.mpr ⟨p, hp, h1⟩
  unfold encode
  exact List.mem_append.mpr (Or.inl (List.mem_append.mpr (Or.inr h2)))

theorem c8_unknown_to_unk_witness :
    ("▁a".toList ∈ tokenize (construct true defaultSpecials [] []) "a".toList) ∧
      wsRun "▁a".toList = false ∧
      getAssoc (construct true defaultSpecials [] []).tokenToId "▁a".toList = none ∧
      (getAssoc (construct true defaultSpecials [] []).tokenToId unkTok)
        ∈ encode (construct true defaultSpecials [] []) "a".toList false true :=
  ⟨by decide, by decide, by decide,
    (c8_unknown_to_unk (construct true defaultSpecials [] []) "a".toList false true
      "▁a".toList (by decide) (by decide) (by decide)).2⟩

/-! ## Whitespace-preserving split: structural facts -/

theorem splitKeepWS_ne_nil : ∀ cs : List Char, splitKeepWS cs ≠ [] := by
  intro cs
  induction cs with
  | nil => simp [splitKeepWS]
  | cons c rest ih =>
    simp only [splitKeepWS]
    cases hr : splitKeepWS rest with
    | nil => simp
    | cons w rs =>
      dsimp only
      by_cases hws : isWS c
      · rw [if_pos hws]
        cases w <;> cases rs <;> simp
      · rw [if_neg hws]
        simp

theorem splitKeepWS_flatten : ∀ cs : List Char, (splitKeepWS cs).flatten = cs := by
  intro cs
  induction cs with
  | nil => rfl
  | cons c rest ih =>
    cases hr : splitKeepWS rest with
    | nil => exact absurd hr (splitKeepWS_ne_nil rest)
    | cons w rs =>
      rw [hr] at ih
      show (splitKeepWS (c :: rest)).flatten = c :: rest
      simp only [splitKeepWS]
      rw [hr]
      dsimp only
      by_cases hws : isWS c
      · rw [if_pos hws]
        cases w with
        | nil =>
          cases rs with
          | nil =>
            have hrest : rest = [] := by simpa using ih.symm
            subst hrest
            simp
          | cons sp rs' =>
            simp only [List.flatten_cons] at ih ⊢
            simp only [List.nil_append] at ih
            simp [← ih]
        | cons x w' =>
          simp only [List.flatten_cons] at ih ⊢
          simp [← ih]
      · rw [if_neg hws]
        simp only [List.flatten_cons] at ih ⊢
        simp [← ih]

theorem splitKeepWS_alt : ∀ cs : List Char, altSegs false (splitKeepWS cs) := by
  intro cs
  induction cs with
  | nil => exact ⟨rfl, trivial⟩
  | cons c rest ih =>
    cases hr : splitKeepWS rest with
    | nil => exact absurd hr (splitKeepWS_ne_nil rest)
    | cons w rs =>
      rw [hr] at ih
      show altSegs false (splitKeepWS (c :: rest))
      simp only [splitKeepWS]
      rw [hr]
      dsimp only
      by_cases hws : isWS c
      · rw [if_pos hws]
        cases w with
        | nil =>
          cases rs with
          | nil => exact ⟨by simp, by simp, by simp [hws], by simp, trivial⟩
          | cons sp rs' =>
            obtain ⟨-, hsp1, hsp2, hrs'⟩ := ih
            refine ⟨by simp, by simp, ?_, hrs'⟩
            simp only [List.all_cons, hws, Bool.true_and]
            exact hsp2
        | cons x w' =>
          obtain ⟨hw, hrs⟩ := ih
          exact ⟨by simp, by simp, by simp [hws], hw, hrs⟩
      · rw [if_neg hws]
        obtain ⟨hw, hrs⟩ := ih
        refine ⟨?_, hrs⟩
        simp only [List.all_cons, Bool.and_eq_true]
        exact ⟨by simp [hws], hw⟩

theorem altSegs_classes :
    ∀ (l : List (List Char)) (b : Bool), altSegs b l →
      ∀ seg ∈ l, seg.all isWS = true ∨ seg.all (fun c => !isWS c) = true := by
  intro l
  induction l with
  | nil => intro b _ seg h; simp at h
  | cons a rest ih =>
    intro b hall seg hseg
    cases b with
    | false =>
      obtain ⟨ha, hrest⟩ := hall
      rcases List.mem_cons.mp hseg with he | hm
      · subst he; exact Or.inr ha
      · exact ih true hrest seg hm
    | true =>
      obtain ⟨-, ha, hrest⟩ := hall
      rcases List.mem_cons.mp hseg with he | hm
      · subst he; exact Or.inl ha
      · exact ih false hrest seg hm

/-! ## Decode, decomposed -/

theorem foldl_stripAppend :
    ∀ (parts : List Tok) (acc : List Char),
      parts.foldl (fun out p => out ++ stripMarker p) acc
        = acc ++ (parts.map stripMarker).flatten := by
  intro parts
  induction parts with
  | nil => intro acc; simp
  | cons p rest ih =>
    intro acc
    simp only [List.foldl_cons, List.map_cons, List.flatten_cons]
    rw [ih, List.append_assoc]

theorem decode_eq (s : Tokenizer) (ids : List (Option Jv)) (sk : Bool) :
    decode s ids sk =
      ((ids.filterMap (fun idRaw =>
        if sk ∧ decodeTok s idRaw ∈ s.specialTokens then none
        else some (decodeTok s idRaw))).map stripMarker).flatten := by
  unfold decode
  rw [foldl_stripAppend]
  simp only [List.nil_append]

/-- Stripping the word-start marker off the pieces of a marker-free word
recovers exactly the word. -/
theorem stripConcat :
    ∀ (ps : List Piece) (w : List Char),
      (∀ p ∈ ps, p ≠ []) → ps.flatten = '▁' :: w → '▁' ∉ w →
      (ps.map stripMarker).flatten = w := by
  intro ps w hne hfl hmark
  cases ps with
  | nil => simp at hfl
  | cons p0 rest =>
    have hp0 : p0 ≠ [] := hne p0 (by simp)
    cases p0 with
    | nil => exact absurd rfl hp0
    | cons c t0 =>
      simp only [List.flatten_cons, List.cons_append] at hfl
      injection hfl with hc hw
      have hrest : ∀ p ∈ rest, stripMarker p = p := by
        intro p hp
        unfold stripMarker
        rw [if_neg]
        intro hhead
        have hp_ne : p ≠ [] := hne p (by simp [hp])
        cases p with
        | nil => exact hp_ne rfl
        | cons d t =>
          simp only [List.head?_cons, Option.some.injEq] at hhead
          have hmem : d ∈ rest.flatten :=
            List.mem_flatten.mpr ⟨d :: t, hp, by simp⟩
          rw [hhead] at hmem
          exact hmark (by rw [← hw]; exact List.mem_append.mpr (Or.inr hmem))
      simp only [List.map_cons, List.flatten_cons]
      have hstrip0 : stripMarker (c :: t0) = t0 := by
        unfold stripMarker
        rw [if_pos (by simp [hc])]
        rfl
      have hmapid : rest.map stripMarker = rest := by
        have h1 : rest.map stripMarker = rest.map id := List.map_congr_left hrest
        rw [h1, List.map_id]
      rw [hstrip0, hmapid, hw]

/-- A piece list in which every piece maps to an id whose `Number` image maps
back to the piece (and none is a special token) survives encode-then-decode
untouched. -/
theorem pieceRoundtrip (s : Tokenizer) :
    ∀ (ps : List Piece),
      (∀ p ∈ ps, wsRun p = false) →
      (∀ p ∈ ps, (getAssoc s.tokenToId p).isSome ∧
        getAssoc s.idToToken
          (jsNumber ((getAssoc s.tokenToId p).getD Jv.nan)) = some p ∧
        p ∉ s.specialTokens) →
      ((ps.filterMap (encodePiece s true)).filterMap
        (fun idRaw =>
          if (true : Bool) ∧ decodeTok s idRaw ∈ s.specialTokens then none
          else some (decodeTok s idRaw))) = ps := by
  intro ps
  induction ps with
  | nil => intro _ _; rfl
  | cons p rest ih =>
    intro hws hv
    obtain ⟨hsome, hrev, hns⟩ := hv p (by simp)
    obtain ⟨v, hvv⟩ := Option.isSome_iff_exists.mp hsome
    rw [hvv] at hrev
    simp only [Option.getD_some] at hrev
    have hwsp := hws p (by simp)
    have henc : encodePiece s true p = some (some v) := by
      unfold encodePiece
      rw [hwsp]
      simp only [Bool.false_eq_true, if_false]
      rw [hvv]
      rfl
    have hdec : decodeTok s (some v) = p := by
      unfold decodeTok jsNumberOpt
      rw [hrev]
      rfl
    have ih' := ih (fun q hq => hws q (by simp [hq])) (fun q hq => hv q (by simp [hq]))
    have h1 : List.filterMap (encodePiece s true) (p :: rest)
        = some v :: List.filterMap (encodePiece s true) rest := by
      rw [List.filterMap_cons, henc]
    rw [h1]
    have hdf : (if true = true ∧ decodeTok s (some v) ∈ s.specialTokens then
        (none : Option Tok) else some (decodeTok s (some v))) = some p := by
      rw [if_neg (by rw [hdec]; simp [hns])]
      rw [hdec]
    have h2 : List.filterMap
          (fun idRaw =>
            if true = true ∧ decodeTok s idRaw ∈ s.specialTokens then none
            else some (decodeTok s idRaw))
          (some v :: List.filterMap (encodePiece s true) rest)
        = p :: List.filterMap
            (fun idRaw =>
              if true = true ∧ decodeTok s idRaw ∈ s.specialTokens then none
              else some (decodeTok s idRaw))
            (List.filterMap (encodePiece s true) rest) := by
      rw [List.filterMap_cons, hdf]
    rw [h2, ih']

/-- Segment-by-segment behaviour of encode-then-decode: whitespace runs whose
`'<SPACE>n'` token is absent decode to a skipped special token, empty
segments vanish, and word segments whose pieces round-trip through the
vocabulary reappear verbatim (marker stripped). -/
theorem segAssembly (s : Tokenizer) (hunk : wsFallbackTok s ∈ s.specialTokens) :
    ∀ (segs : List (List Char)),
      (∀ seg ∈ segs, seg.all isWS = true ∨ seg.all (fun c => !isWS c) = true) →
      (∀ seg ∈ segs, wsRun seg = true →
        getAssoc s.tokenToId (spaceTok seg.length) = none) →
      (∀ seg ∈ segs, '▁' ∉ seg) →
      (∀ seg ∈ segs, wsRun seg = false → seg ≠ [] →
        ∀ p ∈ applyBPEToWord s.merges seg,
          (getAssoc s.tokenToId p).isSome ∧
          getAssoc s.idToToken
            (jsNumber ((getAssoc s.tokenToId p).getD Jv.nan)) = some p ∧
          p ∉ s.specialTokens) →
      ((((segs.flatMap (fun w => if wsRun w then [w]
            else if w.isEmpty then [] else applyBPEToWord s.merges w)).filterMap
              (encodePiece s true)).filterMap
            (fun idRaw =>
              if true = true ∧ decodeTok s idRaw ∈ s.specialTokens then none
              else some (decodeTok s idRaw))).map stripMarker).flatten
        = (segs.filter (fun seg => !wsRun seg)).flatten := by
  intro segs
  induction segs with
  | nil => intro _ _ _ _; rfl
  | cons seg rest ih =>
    intro hclass hsp hmark hpieces
    have ihr := ih (fun g hg => hclass g (by simp [hg]))
      (fun g hg => hsp g (by simp [hg]))
      (fun g hg => hmark g (by simp [hg]))
      (fun g hg => hpieces g (by simp [hg]))
    simp only [eq_self_iff_true] at ihr
    rw [List.flatMap_cons, List.filterMap_append, List.filterMap_append,
      List.map_append, List.flatten_append, List.filter_cons]
    by_cases hws : wsRun seg = true
    · have hseg : (if wsRun seg then [seg]
          else if seg.isEmpty then [] else applyBPEToWord s.merges seg) = [seg] := by
        rw [if_pos hws]
      rw [hseg]
      have hencp : encodePiece s true seg = some (getAssoc s.tokenToId unkTok) := by
        unfold encodePiece
        rw [hws, if_pos rfl, if_pos rfl, hsp seg (by simp) hws]
        rfl
      have henc2 : List.filterMap (encodePiece s true) [seg]
          = [getAssoc s.tokenToId unkTok] := by
        rw [List.filterMap_cons, hencp]
        rfl
      rw [henc2]
      have hunk' : decodeTok s (getAssoc s.tokenToId unkTok) ∈ s.specialTokens := hunk
      have hdec2 : List.filterMap
          (fun idRaw =>
            if true = true ∧ decodeTok s idRaw ∈ s.specialTokens then none
            else some (decodeTok s idRaw)) [getAssoc s.tokenToId unkTok] = [] := by
        rw [List.filterMap_cons]
        rw [show (if true = true ∧
              decodeTok s (getAssoc s.tokenToId unkTok) ∈ s.specialTokens then
              (none : Option Tok)
            else some (decodeTok s (getAssoc s.tokenToId unkTok))) = none
          from if_pos ⟨rfl, hunk'⟩]
        rfl
      rw [hdec2]
      simp only [List.map_nil, List.flatten_nil, List.nil_append, hws,
        Bool.not_true, Bool.false_eq_true, if_false]
      exact ihr
    · have hws' : wsRun seg = false := by
        cases h : wsRun seg
        · rfl
        · exact absurd h hws
      by_cases hemp : seg.isEmpty
      · have hsegnil : seg = [] := by
          cases seg
          · rfl
          · simp [List.isEmpty] at hemp
        subst hsegnil
        have hseg : (if wsRun ([] : List Char) then [([] : List Char)]
            else if ([] : List Char).isEmpty then ([] : List Piece)
            else applyBPEToWord s.merges []) = [] := by
          simp [wsRun]
        rw [hseg]
        simp only [List.filterMap_nil, List.map_nil, List.flatten_nil,
          List.nil_append]
        rw [if_pos (by simp [wsRun])]
        simp only [List.flatten_cons, List.nil_append]
        exact ihr
      · have hne : seg ≠ [] := by
          cases seg
          · simp [List.isEmpty] at hemp
          · simp
        have hseg : (if wsRun seg then [seg]
            else if seg.isEmpty then [] else applyBPEToWord s.merges seg)
            = applyBPEToWord s.merges seg := by
          rw [if_neg (by simp [hws']), if_neg (by simpa using hemp)]
        rw [hseg]
        have hcls : seg.all (fun c => !isWS c) = true := by
          rcases hclass seg (by simp) with hA | hB
          · exfalso
            have hT : wsRun seg = true := by
              unfold wsRun
              simp only [hA, Bool.and_true]
              cases seg
              · exact absurd rfl hne
              · simp [List.isEmpty]
            rw [hT] at hws'
            cases hws'
          · exact hB
        have hpsw : ∀ p ∈ applyBPEToWord s.merges seg, wsRun p = false := by
          intro p hp
          have hpne := applyBPEToWord_ne_nil s.merges seg p hp
          cases p with
          | nil => exact absurd rfl hpne
          | cons c t =>
            have hcmem : c ∈ ('▁' :: seg) := by
              rw [← applyBPEToWord_flatten s.merges seg hne]
              exact List.mem_flatten.mpr ⟨c :: t, hp, by simp⟩
            have hcns : isWS c = false := by
              rcases List.mem_cons.mp hcmem with he | hm
              · subst he; decide
              · have := List.all_eq_true.mp hcls c hm
                simpa using this
            show wsRun (c :: t) = false
            unfold wsRun
            simp [hcns]
        have hround := pieceRoundtrip s (applyBPEToWord s.merges seg) hpsw
          (hpieces seg (by simp) hws' hne)
        rw [hround]
        have hstrip := stripConcat (applyBPEToWord s.merges seg) seg
          (applyBPEToWord_ne_nil s.merges seg)
          (applyBPEToWord_flatten s.merges seg hne)
          (hmark seg (by simp))
        rw [hstrip]
        rw [if_pos (by simp [hws'])]
        simp only [List.flatten_cons]
        rw [ihr]

/-- C7 counterexample: with case folding on (the default), the claim fails —
every whitespace run of `"A"` has length ≤ 1 and no piece of its tokenization
is missing from the vocabulary, yet `decode(encode("A"))` is `"a"`, not the
concatenation `"A"` of the text's words' characters. -/
theorem c7_roundtrip_counterexample :
    (∀ seg ∈ splitKeepWS "A".toList, wsRun seg = true → seg.length ≤ 1) ∧
    (∀ p ∈ tokenize
        { lower := true, specialTokens := defaultSpecials,
          tokenToId := [("▁a".toList, Jv.num 5)],
          idToToken := [(Jv.num 5, "▁a".toList)],
          merges := [], counts := [], nextId := Jv.num 6 } "A".toList,
      wsRun p = false →
        (getAssoc ([("▁a".toList, Jv.num 5)] : List (Tok × Jv)) p).isSome) ∧
    decode
        { lower := true, specialTokens := defaultSpecials,
          tokenToId := [("▁a".toList, Jv.num 5)],
          idToToken := [(Jv.num 5, "▁a".toList)],
          merges := [], counts := [], nextId := Jv.num 6 }
        (encode
          { lower := true, specialTokens := defaultSpecials,
            tokenToId := [("▁a".toList, Jv.num 5)],
            idToToken := [(Jv.num 5, "▁a".toList)],
            merges := [], counts := [], nextId := Jv.num 6 }
          "A".toList false true) true
      ≠ ((splitKeepWS "A".toList).filter (fun seg => !wsRun seg)).flatten := by
  exact ⟨by decide, by decide, by decide⟩

/-- C7 amended: `decode(encode(text, addBosEos := false))` yields the
in-order concatenation of the *normalized* words' characters (NFC and
lowercasing when the `lower` flag is set), provided no whitespace run
exceeds one character, the text contains no word-start marker character,
no `'<SPACE>n'` key is in the vocabulary, the whitespace/unknown fallback
id decodes to a special token, and every word piece maps to a non-special
id that `Number`-maps back to the same piece. -/
theorem c7_roundtrip_amended (s : Tokenizer) (text : List Char)
    (hws : ∀ seg ∈ splitKeepWS (normalizeText s.lower text),
      wsRun seg = true → seg.length ≤ 1)
    (hmark : '▁' ∉ normalizeText s.lower text)
    (hsp : ∀ seg ∈ splitKeepWS (normalizeText s.lower text),
      wsRun seg = true → getAssoc s.tokenToId (spaceTok seg.length) = none)
    (hunk : wsFallbackTok s ∈ s.specialTokens)
    (hpieces : ∀ seg ∈ splitKeepWS (normalizeText s.lower text),
      wsRun seg = false → seg ≠ [] →
      ∀ p ∈ applyBPEToWord s.merges seg,
        (getAssoc s.tokenToId p).isSome ∧
        getAssoc s.idToToken
          (jsNumber ((getAssoc s.tokenToId p).getD Jv.nan)) = some p ∧
        p ∉ s.specialTokens) :
    decode s (encode s text false true) true
      = ((splitKeepWS (normalizeText s.lower text)).filter
          (fun seg => !wsRun seg)).flatten := by
  have hencode : encode s text false true
      = (tokenize s text).filterMap (encodePiece s true) := by
    simp [encode]
  rw [hencode, decode_eq]
  have htok : tokenize s text
      = (splitKeepWS (normalizeText s.lower text)).flatMap
        (fun w => if wsRun w then [w]
          else if w.isEmpty then [] else applyBPEToWord s.merges w) := rfl
  rw [htok]
  refine segAssembly s hunk (splitKeepWS (normalizeText s.lower text))
    (altSegs_classes _ false (splitKeepWS_alt _)) hsp ?_ hpieces
  intro seg hseg hin
  apply hmark
  rw [← splitKeepWS_flatten (normalizeText s.lower text)]
  exact List.mem_flatten.mpr ⟨seg, hseg, hin⟩

theorem c7_roundtrip_amended_witness :
    ('▁' ∉ normalizeText true "a".toList) ∧
      decode
          { lower := true, specialTokens := defaultSpecials,
            tokenToId := [("▁a".toList, Jv.num 5)],
            idToToken := [(Jv.num 5, "▁a".toList)],
            merges := [], counts := [], nextId := Jv.num 6 }
          (encode
            { lower := true, specialTokens := defaultSpecials,
              tokenToId := [("▁a".toList, Jv.num 5)],
              idToToken := [(Jv.num 5, "▁a".toList)],
              merges := [], counts := [], nextId := Jv.num 6 }
            "a".toList false true) true
        = ((splitKeepWS (normalizeText true "a".toList)).filter
            (fun seg => !wsRun seg)).flatten :=
  ⟨by decide,
    c7_roundtrip_amended
      { lower := true, specialTokens := defaultSpecials,
        tokenToId := [("▁a".toList, Jv.num 5)],
        idToToken := [(Jv.num 5, "▁a".toList)],
        merges := [], counts := [], nextId := Jv.num 6 }
      "a".toList (by decide) (by decide) (by decide) (by decide) (by decide)⟩
